import Mathlib

set_option linter.dupNamespace false
set_option maxRecDepth 20000

/-!
# Fireplace: the frame-rendering pipeline of `main.go`

A shallow embedding of `render`, `formatDuration` and the driver loop of `main`,
followed by the properties proved about them.

Conventions of the embedding

* Go `int`, `int64` and `time.Duration` values are mathematical integers (`Int`);
  where the source relies on 64-bit wrap-around (the overflow test of
  `Duration.Round`, the multiplication that builds the sleep time) the wrap is
  explicit (`wrap64`).
* Go strings are `String`s; `len` is the UTF-8 byte length.
* `float64` values are modelled exactly: a finite value is `± mant * 2 ^ exp`, and
  conversion, division and multiplication round to the nearest value with a 53-bit
  significand, ties to even.  The exponent range of binary64 is not modelled: every
  float computed by `render` is a converted 64-bit integer, a quotient of two such, or
  a product of two such values, whose magnitudes lie between `2^-64` and `2^128`, far
  inside the normal range.
-/

namespace Fireplace

/-! ## Machine integers -/

/-- Two's-complement wrap of an integer to the `int64` range. -/
def wrap64 (n : Int) : Int := (n + 2 ^ 63) % 2 ^ 64 - 2 ^ 63

/-- Largest `int64` (and `time.Duration`) value. -/
def maxInt64 : Int := 2 ^ 63 - 1

/-- Smallest `int64` (and `time.Duration`) value. -/
def minInt64 : Int := -(2 ^ 63)

/-! ## `fmt` integer verbs -/

/-- The character of the decimal digit `d`. -/
def digitChar (d : Nat) : Char := Char.ofNat (48 + d)

/-- Decimal digits of `n`, most significant first (the recursion is bounded by `fuel`). -/
def decDigits : Nat → Nat → List Char
  | 0, _ => []
  | fuel + 1, n => if n < 10 then [digitChar n] else decDigits fuel (n / 10) ++ [digitChar (n % 10)]

/-- Verb `%d` applied to an unsigned value. -/
def fmtNat (n : Nat) : String := String.mk (decDigits (n + 1) n)

/-- Verb `%d` applied to a signed value. -/
def fmtInt (n : Int) : String := if n < 0 then "-" ++ fmtNat n.natAbs else fmtNat n.natAbs

/-- Left padding with zeros of a digit string up to `width` characters. -/
def zeroPad (width : Nat) (s : String) : String := String.mk (List.replicate (width - s.length) '0') ++ s

/-- Verb `%02d` applied to a signed value: the field is two wide and the sign counts
towards the width. -/
def fmtInt02 (n : Int) : String :=
  if n < 0 then "-" ++ zeroPad 1 (fmtNat n.natAbs) else zeroPad 2 (fmtNat n.natAbs)

/-! ## `time.Duration` -/

/-- Constant `time.Second`, in nanoseconds. -/
def Second : Int := 1000000000

/-- Constant `time.Millisecond`, in nanoseconds. -/
def Millisecond : Int := 1000000

/-- Constant `time.Minute`, in nanoseconds. -/
def Minute : Int := 60 * Second

/-- Constant `time.Hour`, in nanoseconds. -/
def Hour : Int := 60 * Minute

/-- Library helper `lessThanHalf(x, y)`: `uint64(x) + uint64(x) < uint64(y)`. -/
def lessThanHalf (x y : Int) : Bool := decide ((x % 2 ^ 64 + x % 2 ^ 64) % 2 ^ 64 < y % 2 ^ 64)

/-- Library method `Duration.Round(m)`: nearest multiple of `m`, halves away from zero,
saturating at the largest and smallest `Duration`. -/
def Duration.Round (d m : Int) : Int :=
  if m ≤ 0 then d
  else
    let r := Int.tmod d m
    if d < 0 then
      let r := -r
      if lessThanHalf r m then wrap64 (d + r)
      else
        let d1 := wrap64 (d - m + r)
        if d1 < d then d1 else minInt64
    else if lessThanHalf r m then wrap64 (d - r)
    else
      let d1 := wrap64 (d + m - r)
      if d1 > d then d1 else maxInt64

/-- Function `formatDuration` of `main.go`. -/
def formatDuration (d : Int) : String :=
  let d := Duration.Round d Second
  let h := Int.tdiv d Hour
  let d := wrap64 (d - wrap64 (h * Hour))
  let m := Int.tdiv d Minute
  let d := wrap64 (d - wrap64 (m * Minute))
  let s := Int.tdiv d Second
  "Uptime: " ++ fmtInt02 h ++ ":" ++ fmtInt02 m ++ ":" ++ fmtInt02 s

/-! ## `float64` -/

/-- Number of halvings that bring `n` below 2 (the recursion is bounded by `fuel`). -/
def log2Fuel : Nat → Nat → Nat
  | 0, _ => 0
  | fuel + 1, n => if n < 2 then 0 else log2Fuel fuel (n / 2) + 1

/-- Position of the leading bit of `n`: `2 ^ ilog2 n ≤ n < 2 ^ (ilog2 n + 1)` for `n ≥ 1`. -/
def ilog2 (n : Nat) : Nat := log2Fuel n n

/-- A `float64` value: a finite `(-1)^neg * mant * 2^exp`, an infinity or a NaN. -/
inductive F64 where
  | finite (neg : Bool) (mant : Nat) (exp : Int)
  | inf (neg : Bool)
  | nan
deriving DecidableEq, Repr

/-- The `float64` nearest to `± a / b` (for `b ≠ 0`), ties to the even significand: the
quotient is scaled by the power of two that puts it in `[2^52, 2^53)` and rounded to
an integer there. -/
def F64.round (neg : Bool) (a b : Nat) : F64 :=
  if a = 0 then F64.finite neg 0 0
  else
    let e0 : Int := (ilog2 a : Int) - (ilog2 b : Int) - 52
    let n0 : Nat := a * 2 ^ (-e0).toNat
    let den : Nat := b * 2 ^ e0.toNat
    let low : Bool := decide (n0 < 2 ^ 52 * den)
    let num : Nat := if low then 2 * n0 else n0
    let e : Int := if low then e0 - 1 else e0
    let q : Nat := num / den
    let r : Nat := num % den
    let m : Nat := if 2 * r < den then q else if den < 2 * r then q + 1 else if q % 2 = 0 then q else q + 1
    F64.finite neg m e

/-- Conversion `float64(n)` of an integer. -/
def F64.ofInt (n : Int) : F64 := F64.round (decide (n < 0)) n.natAbs 1

/-- Operator `/` on `float64`. -/
def F64.div : F64 → F64 → F64
  | F64.finite s1 m1 e1, F64.finite s2 m2 e2 =>
    if m2 = 0 then (if m1 = 0 then F64.nan else F64.inf (xor s1 s2))
    else F64.round (xor s1 s2) (m1 * 2 ^ (e1 - e2).toNat) (m2 * 2 ^ (e2 - e1).toNat)
  | F64.finite s1 _ _, F64.inf s2 => F64.finite (xor s1 s2) 0 0
  | F64.inf s1, F64.finite s2 _ _ => F64.inf (xor s1 s2)
  | _, _ => F64.nan

/-- Operator `*` on `float64`. -/
def F64.mul : F64 → F64 → F64
  | F64.finite s1 m1 e1, F64.finite s2 m2 e2 =>
    F64.round (xor s1 s2) (m1 * m2 * 2 ^ (e1 + e2).toNat) (2 ^ (-(e1 + e2)).toNat)
  | F64.finite s1 m1 _, F64.inf s2 => if m1 = 0 then F64.nan else F64.inf (xor s1 s2)
  | F64.inf s1, F64.finite s2 m2 _ => if m2 = 0 then F64.nan else F64.inf (xor s1 s2)
  | F64.inf s1, F64.inf s2 => F64.inf (xor s1 s2)
  | _, _ => F64.nan

/-- Conversion `int(f)`: the fraction is discarded (truncation towards zero).  A value
outside the `int64` range, an infinity or a NaN gives the smallest `int64`, as on amd64
(the language leaves that case to the implementation). -/
def F64.toInt : F64 → Int
  | F64.finite s m e =>
    let mag : Nat := if 0 ≤ e then m * 2 ^ e.toNat else m / 2 ^ (-e).toNat
    let t : Int := if s then -(mag : Int) else (mag : Int)
    if minInt64 ≤ t ∧ t ≤ maxInt64 then t else minInt64
  | _ => minInt64

/-- The rational number a finite `float64` stands for (0 for infinities and NaN). -/
def F64.toRat : F64 → ℚ
  | F64.finite s m e => (if s then -1 else 1) * (m : ℚ) * (2 : ℚ) ^ e
  | _ => 0

/-- Whether a `float64` is finite. -/
def F64.isFinite : F64 → Bool
  | F64.finite _ _ _ => true
  | _ => false

/-! ## Images -/

/-- A `color.RGBA` value: four 8-bit channels. -/
structure RGBA where
  R : Fin 256
  G : Fin 256
  B : Fin 256
  A : Fin 256
deriving DecidableEq, Repr

/-- Expansion of an 8-bit channel to 16 bits, `r |= r << 8`. -/
def expand16 (c : Fin 256) : Nat := c.val ||| (c.val <<< 8)

/-- Method `RGBA()` of `color.RGBA`: the four channels expanded to 16 bits. -/
def RGBA.RGBA (c : RGBA) : Nat × Nat × Nat × Nat := (expand16 c.R, expand16 c.G, expand16 c.B, expand16 c.A)

/-- A decoded frame (`image.Image`): its bounds rectangle and its pixel lookup `At`,
which is defined at every point. -/
structure Image where
  minX : Int
  minY : Int
  maxX : Int
  maxY : Int
  At : Int → Int → RGBA

/-- Method `Bounds().Dx()`: the width of the frame. -/
def Image.Dx (img : Image) : Int := img.maxX - img.minX

/-- Method `Bounds().Dy()`: the height of the frame. -/
def Image.Dy (img : Image) : Int := img.maxY - img.minY

/-- Whether the point `(x, y)` lies inside the bounds of the frame. -/
def Image.inBounds (img : Image) (x y : Int) : Prop :=
  img.minX ≤ x ∧ x < img.maxX ∧ img.minY ≤ y ∧ y < img.maxY

/-! ## `render` -/

/-- Result of `term.GetSize`: the reported width and height and whether an error came back. -/
structure TermSize where
  width : Int
  height : Int
  err : Bool

/-- The geometry `render` works with (lines 61 to 64): the reported size, or 80 by 24
when the query failed or reported a zero width or height. -/
def termSize (q : TermSize) : Int × Int :=
  if q.err || q.width == 0 || q.height == 0 then (80, 24) else (q.width, q.height)

/-- Counting loop `for i := 0; i < n; i++` with body `body`, run on a state. -/
def forRange {σ : Type} (n : Int) (body : Int → σ → σ) (s : σ) : σ :=
  (List.range n.toNat).foldl (fun (st : σ) (i : Nat) => body (i : Int) st) s

/-- The state of `render` while it composes a frame: the buffer `buf`, and the points
handed to `img.At` so far, in order. -/
structure Canvas where
  buf : String
  reads : List (Int × Int)

/-- Constant `blockRune`. -/
def blockRune : String := "█"

/-- Local `scaleX` of `render`. -/
def scaleX (img : Image) (termCols : Int) : F64 := F64.div (F64.ofInt img.Dx) (F64.ofInt termCols)

/-- Local `scaleY` of `render`. -/
def scaleY (img : Image) (termRows : Int) : F64 := F64.div (F64.ofInt img.Dy) (F64.ofInt termRows)

/-- Local `srcX` of `render` for column `x`. -/
def srcX (img : Image) (termCols x : Int) : Int := F64.toInt (F64.mul (F64.ofInt x) (scaleX img termCols))

/-- Local `srcY` of `render` for row `y`. -/
def srcY (img : Image) (termRows y : Int) : Int := F64.toInt (F64.mul (F64.ofInt y) (scaleY img termRows))

/-- The point handed to `img.At` for the cell `(x, y)`. -/
def samplePoint (img : Image) (termCols termRows x y : Int) : Int × Int :=
  (img.minX + srcX img termCols x, img.minY + srcY img termRows y)

/-- The colour `render` samples for the cell `(x, y)`. -/
def sampleColor (img : Image) (termCols termRows x y : Int) : RGBA :=
  img.At (samplePoint img termCols termRows x y).1 (samplePoint img termCols termRows x y).2

/-- The text of one cell: `Sprintf("\x1b[38;2;%d;%d;%dm%s", r>>8, g>>8, b>>8, blockRune)`
with `r, g, b, _ := c.RGBA()`. -/
def cellText (c : RGBA) : String :=
  "\x1b[38;2;" ++ fmtNat (c.RGBA.1 >>> 8) ++ ";" ++ fmtNat (c.RGBA.2.1 >>> 8) ++ ";" ++
    fmtNat (c.RGBA.2.2.1 >>> 8) ++ "m" ++ blockRune

/-- Body of the inner loop of `render` (lines 81 to 84). -/
def renderCell (img : Image) (termCols termRows y x : Int) (cv : Canvas) : Canvas :=
  let p := samplePoint img termCols termRows x y
  { buf := cv.buf ++ cellText (img.At p.1 p.2), reads := cv.reads ++ [p] }

/-- Body of the outer loop of `render` (lines 80 to 86). -/
def renderRow (img : Image) (termCols termRows y : Int) (cv : Canvas) : Canvas :=
  let cv := forRange termCols (renderCell img termCols termRows y) cv
  { cv with buf := cv.buf ++ "\x1b[0m\n" }

/-- Local `textCol` of `render` (lines 96 to 99). -/
def textCol (termCols : Int) (timerText : String) : Int :=
  let col := Int.tdiv (termCols - (timerText.utf8ByteSize : Int)) 2
  if col < 1 then 1 else col

/-- The part of `render` after the size query (lines 66 to 105), as a function of the
geometry and of the elapsed time `time.Since(startTime)`. -/
def renderAt (img : Image) (termCols termRows elapsed : Int) : Canvas :=
  let cv : Canvas := { buf := "\x1b[H", reads := [] }
  let cv := forRange termRows (renderRow img termCols termRows) cv
  let timerText := formatDuration elapsed
  let col := textCol termCols timerText
  let cv := { cv with buf := cv.buf ++ ("\x1b[" ++ fmtInt termRows ++ ";" ++ fmtInt col ++ "H") }
  let cv := { cv with buf := cv.buf ++ "\x1b[38;2;255;255;255;48;2;0;0;0m" }
  let cv := { cv with buf := cv.buf ++ timerText }
  { cv with buf := cv.buf ++ "\x1b[0m" }

/-- Function `render` of `main.go`: the string it prints, given the answer of the size
query and the elapsed time. -/
def render (img : Image) (q : TermSize) (elapsed : Int) : String :=
  (renderAt img (termSize q).1 (termSize q).2 elapsed).buf

/-! ## The driver loop of `main` -/

/-- What the outside world answers at the `k`-th call of `render`: the size query and
the elapsed time. -/
structure Env where
  size : Nat → TermSize
  elapsed : Nat → Int

/-- One iteration of the frame loop: the index of the frame rendered and the argument
of `time.Sleep`. -/
structure Tick where
  frame : Nat
  sleep : Int
deriving DecidableEq, Repr

/-- The observable history of a run: the writes to standard output and the iterations
completed, both in order. -/
structure Run where
  stdout : List String
  ticks : List Tick

/-- Argument of `time.Sleep`: `time.Duration(delay) * 10 * time.Millisecond`. -/
def sleepTime (delay : Int) : Int := wrap64 (wrap64 (wrap64 delay * 10) * Millisecond)

/-- Loop `for i, img := range frames` of `main`, from index `i` on; `none` is the
run-time panic of `delays[i]` out of range. -/
def rangeFrames (env : Env) (delays : List Int) : Nat → List Image → Run → Option Run
  | _, [], run => some run
  | i, img :: rest, run =>
    match delays[i]? with
    | none => none
    | some d =>
      let k := run.ticks.length
      rangeFrames env delays (i + 1) rest
        { stdout := run.stdout ++ [render img (env.size k) (env.elapsed k)],
          ticks := run.ticks ++ [{ frame := i, sleep := sleepTime d }] }

/-- The first `passes` iterations of the endless outer loop of `main`. -/
def forever (env : Env) (frames : List Image) (delays : List Int) : Nat → Run → Option Run
  | 0, run => some run
  | passes + 1, run => (rangeFrames env delays 0 frames run).bind (forever env frames delays passes)

/-- Function `clearScreen`: the string it prints. -/
def clearScreen : String := "\x1b[2J"

/-- Function `main` after `decodeGIF` returned `frames` and `delays`, cut after `passes`
iterations of the outer loop. -/
def main (env : Env) (frames : List Image) (delays : List Int) (passes : Nat) : Option Run :=
  forever env frames delays passes { stdout := [clearScreen], ticks := [] }

/-! ## Definitions that follow the words of the specification -/

/-- A duration in nanoseconds rounded to the nearest whole second (halves upwards). -/
def roundSeconds (d : Int) : Nat := ((d + 500000000) / 1000000000).toNat

/-- A number printed in decimal, zero-padded to at least two digits. -/
def pad2 (n : Nat) : String := if n < 10 then "0" ++ fmtNat n else fmtNat n

/-- The overlay text `Uptime: HH:MM:SS` for a whole number `t` of seconds. -/
def uptimeText (t : Nat) : String :=
  "Uptime: " ++ pad2 (t / 3600) ++ ":" ++ pad2 (t / 60 % 60) ++ ":" ++ pad2 (t % 60)

/-- The computation that `srcX` and `srcY` share: `int(float64(i) * (float64(size) / float64(n)))`. -/
def srcCoord (size n i : Int) : Int :=
  F64.toInt (F64.mul (F64.ofInt i) (F64.div (F64.ofInt size) (F64.ofInt n)))

/-- A frame two pixels wide and one high: a red pixel, then a blue one. -/
def twoPixels : Image :=
  { minX := 0, minY := 0, maxX := 2, maxY := 1,
    At := fun x _ => if x = 0 then ⟨255, 0, 0, 255⟩ else ⟨0, 0, 255, 255⟩ }

/-- The text of one cell in the words of the specification: the foreground-colour
sequence carrying the decimal channel values of the pixel, then one block glyph. -/
def specCell (c : RGBA) : String :=
  "\x1b[38;2;" ++ fmtNat c.R.val ++ ";" ++ fmtNat c.G.val ++ ";" ++ fmtNat c.B.val ++ "m" ++ "█"

/-- Row `y` of the pixel grid: the cells of the columns `0 .. columns - 1` in order, then
the style reset and a line feed. -/
def specRow (img : Image) (columns rows : Int) (y : Nat) : String :=
  String.join ((List.range columns.toNat).map
    (fun (x : Nat) => specCell (sampleColor img columns rows (x : Int) (y : Int)))) ++ "\x1b[0m" ++ "\n"

/-- The pixel-grid section: the rows `0 .. rows - 1` in order. -/
def specGrid (img : Image) (columns rows : Int) : String :=
  String.join ((List.range rows.toNat).map (specRow img columns rows))

/-- The overlay section: cursor position, white on black, the text, style reset. -/
def specOverlay (rows startCol : Int) (text : String) : String :=
  "\x1b[" ++ fmtInt rows ++ ";" ++ fmtInt startCol ++ "H" ++ "\x1b[38;2;255;255;255;48;2;0;0;0m" ++
    text ++ "\x1b[0m"

/-- The whole composed buffer: cursor home, pixel grid, overlay. -/
def specBuffer (img : Image) (columns rows elapsed : Int) : String :=
  "\x1b[H" ++ specGrid img columns rows ++
    specOverlay rows (textCol columns (formatDuration elapsed)) (formatDuration elapsed)

/-- Number of times the character `c` occurs in `s`. -/
def countChar (c : Char) (s : String) : Nat := s.data.count c

/-- Number of positions of a text at which the pattern `pat` begins. -/
def countOcc (pat : List Char) : List Char → Nat
  | [] => 0
  | c :: cs => (if pat.isPrefixOf (c :: cs) then 1 else 0) + countOcc pat cs

/-- Number of occurrences of the sequence `pat` in `s`. -/
def countSeq (pat s : String) : Nat := countOcc pat.data s.data

/-- The text `s` contributes `k` occurrences of `pat` whatever follows it. -/
def Passes (pat s : List Char) (k : Nat) : Prop :=
  ∀ rest : List Char, countOcc pat (s ++ rest) = k + countOcc pat rest

/-- The history `run` shows `t` completed iterations of the frame loop: the screen was
cleared first, and iteration `k` rendered frame `k mod n` with the answers the outside
world gave at call `k`, then slept for the time of delay `k mod n`. -/
def Played (env : Env) (frames : List Image) (delays : List Int) (t : Nat) (run : Run) : Prop :=
  run.ticks.length = t ∧ run.stdout.length = t + 1 ∧ run.stdout[0]? = some clearScreen ∧
  ∀ k, k < t →
    run.ticks[k]? = some ⟨k % frames.length, sleepTime (delays.getD (k % frames.length) 0)⟩ ∧
    run.stdout[k + 1]? =
      (frames[k % frames.length]?).map (fun img => render img (env.size k) (env.elapsed k))

/-- The effect of one call of `render` on standard output, a sequence of writes: the
`WriteString` calls fill the buffer in memory, and the one `fmt.Print` of line 108
appends the string of the whole buffer. -/
def renderCall (img : Image) (q : TermSize) (elapsed : Int) (stdout : List String) : List String :=
  stdout ++ [(renderAt img (termSize q).1 (termSize q).2 elapsed).buf]

/-- The number a string of decimal digits stands for. -/
def decValue (l : List Char) : Nat := l.foldl (fun acc c => 10 * acc + (c.toNat - 48)) 0

/-- The text `r` is empty or begins with the escape character. -/
def EscHeaded (r : List Char) : Prop := r = [] ∨ ∃ t, r = '\x1b' :: t

/-- A frame of the size of `twoPixels` whose pixels are all black. -/
def darkPixels : Image :=
  { minX := 0, minY := 0, maxX := 2, maxY := 1, At := fun _ _ => ⟨0, 0, 0, 255⟩ }

/-! ## Machine integers: lemmas -/

theorem wrap64_eq_self {n : Int} (h1 : -9223372036854775808 ≤ n) (h2 : n ≤ 9223372036854775807) :
    wrap64 n = n := by
  unfold wrap64
  norm_num
  omega

/-! ## Decimal printing: lemmas -/

theorem decDigits_lt_ten (fuel n : Nat) (h : n < 10) : decDigits (fuel + 1) n = [digitChar n] := by
  simp [decDigits, h]

theorem decDigits_ge_ten (fuel n : Nat) (h : 10 ≤ n) :
    decDigits (fuel + 1) n = decDigits fuel (n / 10) ++ [digitChar (n % 10)] := by
  have h2 : ¬ n < 10 := by omega
  simp [decDigits, h2]

theorem decDigits_length_pos (fuel n : Nat) : 0 < (decDigits (fuel + 1) n).length := by
  by_cases h : n < 10
  · simp [decDigits_lt_ten, h]
  · rw [decDigits_ge_ten fuel n (by omega)]
    simp

theorem fmtNat_lt_ten (n : Nat) (h : n < 10) : fmtNat n = String.mk [digitChar n] := by
  simp [fmtNat, decDigits_lt_ten, h]

theorem fmtNat_length_ge_two (n : Nat) (h : 10 ≤ n) : 2 ≤ (fmtNat n).length := by
  obtain ⟨k, rfl⟩ : ∃ k, n = k + 1 := ⟨n - 1, by omega⟩
  have hpos := decDigits_length_pos k ((k + 1) / 10)
  simp only [fmtNat, String.length_mk]
  rw [decDigits_ge_ten (k + 1) (k + 1) h]
  simp only [List.length_append, List.length_singleton]
  omega

theorem zeroPad_two_fmtNat (n : Nat) : zeroPad 2 (fmtNat n) = pad2 n := by
  unfold zeroPad pad2
  by_cases h : n < 10
  · rw [if_pos h, fmtNat_lt_ten n h]
    rfl
  · rw [if_neg h]
    have h2 := fmtNat_length_ge_two n (by omega)
    have h3 : 2 - (fmtNat n).length = 0 := by omega
    rw [h3]
    apply String.ext
    simp

theorem fmtInt02_of_nonneg (n : Int) (h : 0 ≤ n) : fmtInt02 n = pad2 n.toNat := by
  unfold fmtInt02
  have h2 : ¬ n < 0 := by omega
  rw [if_neg h2]
  have h3 : n.natAbs = n.toNat := by omega
  rw [h3, zeroPad_two_fmtNat]

/-! ## `formatDuration`: lemmas -/

theorem lessThanHalf_iff {x y : Int} (hx : 0 ≤ x) (hx2 : x < 4611686018427387904) (hy : 0 ≤ y)
    (hy2 : y < 4611686018427387904) : lessThanHalf x y = true ↔ x + x < y := by
  unfold lessThanHalf
  rw [decide_eq_true_iff]
  norm_num
  omega

/-- Below the saturation point `Duration.Round` to the second is rounding half up. -/
theorem Round_second (d : Int) (h0 : 0 ≤ d) (h1 : d < 9223372036500000000) :
    Duration.Round d Second = (roundSeconds d : Int) * 1000000000 := by
  have hr : Int.tmod d 1000000000 = d % 1000000000 := Int.tmod_eq_emod h0 (by norm_num)
  have hT : ((roundSeconds d : Nat) : Int) = (d + 500000000) / 1000000000 := by
    unfold roundSeconds
    omega
  rw [hT]
  unfold Duration.Round Second
  simp only [hr]
  have hm : ¬ ((1000000000 : Int) ≤ 0) := by norm_num
  have hd : ¬ (d < 0) := by omega
  rw [if_neg hm, if_neg hd]
  have hlt := @lessThanHalf_iff (d % 1000000000) 1000000000 (by omega) (by omega) (by norm_num)
    (by norm_num)
  by_cases hh : lessThanHalf (d % 1000000000) 1000000000 = true
  · rw [if_pos hh]
    have := hlt.mp hh
    rw [wrap64_eq_self (by omega) (by omega)]
    omega
  · rw [if_neg hh]
    have : ¬ (d % 1000000000 + d % 1000000000 < 1000000000) := fun h => hh (hlt.mpr h)
    rw [wrap64_eq_self (by omega) (by omega)]
    have hgt : d + 1000000000 - d % 1000000000 > d := by omega
    rw [if_pos hgt]
    omega

/-- From half a second below the largest `Duration` on, `Duration.Round` saturates. -/
theorem Round_second_saturated (d : Int) (h0 : 9223372036500000000 ≤ d)
    (h1 : d ≤ 9223372036854775807) : Duration.Round d Second = 9223372036854775807 := by
  have hr : Int.tmod d 1000000000 = d % 1000000000 := Int.tmod_eq_emod (by omega) (by norm_num)
  unfold Duration.Round Second
  simp only [hr]
  have hm : ¬ ((1000000000 : Int) ≤ 0) := by norm_num
  have hd : ¬ (d < 0) := by omega
  rw [if_neg hm, if_neg hd]
  have hlt := @lessThanHalf_iff (d % 1000000000) 1000000000 (by omega) (by omega) (by norm_num)
    (by norm_num)
  have hh : ¬ (lessThanHalf (d % 1000000000) 1000000000 = true) := by
    rw [hlt]
    omega
  rw [if_neg hh]
  have hw : wrap64 (d + 1000000000 - d % 1000000000) = -9223372036709551616 := by
    unfold wrap64
    norm_num
    omega
  rw [hw]
  have hgt : ¬ ((-9223372036709551616 : Int) > d) := by omega
  rw [if_neg hgt]
  rfl

/-- What `formatDuration` prints when `Duration.Round` returned `t` whole seconds and a
fraction `f` of a second. -/
theorem formatDuration_of_Round (d : Int) (t : Nat) (f : Int) (hf : 0 ≤ f) (hf2 : f < 1000000000)
    (hv : (t : Int) * 1000000000 + f ≤ 9223372036854775807)
    (h : Duration.Round d Second = (t : Int) * 1000000000 + f) : formatDuration d = uptimeText t := by
  unfold formatDuration uptimeText
  simp only [h]
  unfold Hour Minute Second
  norm_num
  have e1 : Int.tdiv ((t : Int) * 1000000000 + f) 3600000000000 = ((t / 3600 : Nat) : Int) := by
    rw [Int.tdiv_eq_ediv (by omega) (by norm_num)]
    omega
  rw [e1]
  have e2 : wrap64 (((t / 3600 : Nat) : Int) * 3600000000000) = ((t / 3600 : Nat) : Int) * 3600000000000 :=
    wrap64_eq_self (by omega) (by omega)
  rw [e2]
  have e3 : wrap64 ((t : Int) * 1000000000 + f - ((t / 3600 : Nat) : Int) * 3600000000000)
      = ((t % 3600 : Nat) : Int) * 1000000000 + f := by
    rw [wrap64_eq_self (by omega) (by omega)]
    omega
  rw [e3]
  have e4 : Int.tdiv (((t % 3600 : Nat) : Int) * 1000000000 + f) 60000000000
      = ((t / 60 % 60 : Nat) : Int) := by
    rw [Int.tdiv_eq_ediv (by omega) (by norm_num)]
    omega
  rw [e4]
  have e5 : wrap64 (((t / 60 % 60 : Nat) : Int) * 60000000000) = ((t / 60 % 60 : Nat) : Int) * 60000000000 :=
    wrap64_eq_self (by omega) (by omega)
  rw [e5]
  have e6 : wrap64 (((t % 3600 : Nat) : Int) * 1000000000 + f - ((t / 60 % 60 : Nat) : Int) * 60000000000)
      = ((t % 60 : Nat) : Int) * 1000000000 + f := by
    rw [wrap64_eq_self (by omega) (by omega)]
    omega
  rw [e6]
  have e7 : Int.tdiv (((t % 60 : Nat) : Int) * 1000000000 + f) 1000000000 = ((t % 60 : Nat) : Int) := by
    rw [Int.tdiv_eq_ediv (by omega) (by norm_num)]
    omega
  rw [e7]
  rw [fmtInt02_of_nonneg _ (by omega), fmtInt02_of_nonneg _ (by omega), fmtInt02_of_nonneg _ (by omega)]
  simp only [Int.toNat_ofNat]

/-! ## The overlay text (C2) -/

/-- C2, amended.  For every non-negative `Duration` `d`, `formatDuration d` is `Uptime: `
followed by `HH:MM:SS` with `HH = T / 3600`, `MM = T / 60 % 60`, `SS = T % 60`, each in
decimal zero-padded to at least two digits, where `T` is `d` rounded to the nearest
whole second, capped at 9223372036 (the cap is reached from `d = 9223372036.5 s` on,
where `Duration.Round` saturates); below that point `T` is within half a second of `d`. -/
theorem formatDuration_spec (d : Int) (h0 : 0 ≤ d) (h1 : d ≤ maxInt64) :
    formatDuration d = uptimeText (min (roundSeconds d) 9223372036) ∧
      (d < 9223372036500000000 →
        min (roundSeconds d) 9223372036 = roundSeconds d ∧
        2 * |d - (roundSeconds d : Int) * 1000000000| ≤ 1000000000) := by
  have hmax : maxInt64 = 9223372036854775807 := by unfold maxInt64; norm_num
  rw [hmax] at h1
  have hT : ((roundSeconds d : Nat) : Int) = (d + 500000000) / 1000000000 := by
    unfold roundSeconds
    omega
  constructor
  · by_cases hs : d < 9223372036500000000
    · have hmin : min (roundSeconds d) 9223372036 = roundSeconds d := by
        apply min_eq_left
        omega
      rw [hmin]
      apply formatDuration_of_Round d (roundSeconds d) 0 le_rfl (by norm_num) (by omega)
      rw [Round_second d h0 hs]
      ring
    · have hmin : min (roundSeconds d) 9223372036 = 9223372036 := by
        apply min_eq_right
        omega
      rw [hmin]
      apply formatDuration_of_Round d 9223372036 854775807 (by norm_num) (by norm_num) (by norm_num)
      rw [Round_second_saturated d (by omega) h1]
      norm_num
  · intro hs
    constructor
    · apply min_eq_left
      omega
    · have habs : |d - (roundSeconds d : Int) * 1000000000| ≤ 500000000 :=
        abs_le.mpr ⟨by omega, by omega⟩
      linarith

/-- C2, the examples of the claim: 3661 s, 59 s and 0 s, and an hour field beyond 24. -/
theorem formatDuration_spec_witness :
    (0 : Int) ≤ 3661 * Second ∧ 3661 * Second ≤ maxInt64 ∧
    formatDuration (3661 * Second) = "Uptime: 01:01:01" ∧
    formatDuration (59 * Second) = "Uptime: 00:00:59" ∧
    formatDuration 0 = "Uptime: 00:00:00" ∧
    formatDuration (90000 * Second) = "Uptime: 25:00:00" :=
  ⟨by decide, by decide,
    (formatDuration_spec (3661 * Second) (by decide) (by decide)).1.trans (by decide),
    (formatDuration_spec (59 * Second) (by decide) (by decide)).1.trans (by decide),
    (formatDuration_spec 0 (by decide) (by decide)).1.trans (by decide),
    (formatDuration_spec (90000 * Second) (by decide) (by decide)).1.trans (by decide)⟩

/-- C2 as stated fails at the largest `Duration`, 9223372036.854775807 s: the nearest
whole second is 9223372037, for which the claim gives `2562047:47:17`; that many seconds
do not fit a `Duration`, `Duration.Round` returns the largest `Duration` unchanged, and
the code prints `2562047:47:16`. -/
theorem formatDuration_nearest_fails :
    (0 : Int) ≤ maxInt64 ∧ maxInt64 = 9223372036854775807 ∧
    2 * |maxInt64 - 9223372037 * 1000000000| < 1000000000 ∧
    Duration.Round maxInt64 Second = maxInt64 ∧
    uptimeText 9223372037 = "Uptime: 2562047:47:17" ∧
    formatDuration maxInt64 = "Uptime: 2562047:47:16" ∧
    formatDuration maxInt64 ≠ uptimeText 9223372037 := by
  refine ⟨by decide, by decide, by decide, by decide, by decide, by decide, by decide⟩

/-! ## The composed buffer (C1) -/

theorem expand16_shiftRight (c : Fin 256) : expand16 c >>> 8 = c.val := by
  revert c
  unfold expand16
  decide

theorem cellText_eq_specCell (c : RGBA) : cellText c = specCell c := by
  simp only [cellText, specCell, RGBA.RGBA, expand16_shiftRight, blockRune]

theorem foldl_append_eq (l : List String) (acc : String) :
    List.foldl (fun r s => r ++ s) acc l = acc ++ String.join l := by
  induction l generalizing acc with
  | nil => simp [String.join]
  | cons a l ih =>
    have e : String.join (a :: l) = List.foldl (fun r s => r ++ s) ("" ++ a) l := rfl
    rw [List.foldl_cons, ih, e, ih ("" ++ a), String.empty_append, String.append_assoc]

theorem join_cons (a : String) (l : List String) : String.join (a :: l) = a ++ String.join l := by
  have e : String.join (a :: l) = List.foldl (fun r s => r ++ s) ("" ++ a) l := rfl
  rw [e, foldl_append_eq, String.empty_append]

theorem join_append (l1 l2 : List String) :
    String.join (l1 ++ l2) = String.join l1 ++ String.join l2 := by
  induction l1 with
  | nil => simp [String.join]
  | cons a l ih => rw [List.cons_append, join_cons, join_cons, ih, String.append_assoc]

/-- The inner loop of `render` appends the cells of the columns in order and records
the points it looked up. -/
theorem foldl_renderCell (img : Image) (termCols termRows y : Int) (l : List Nat) (cv : Canvas) :
    List.foldl (fun st (i : Nat) => renderCell img termCols termRows y (i : Int) st) cv l =
      { buf := cv.buf ++ String.join (l.map
          (fun (x : Nat) => specCell (sampleColor img termCols termRows (x : Int) y))),
        reads := cv.reads ++ l.map (fun (x : Nat) => samplePoint img termCols termRows (x : Int) y) } := by
  induction l generalizing cv with
  | nil => simp [String.join]
  | cons a l ih =>
    rw [List.foldl_cons, ih]
    simp only [renderCell, List.map_cons, join_cons, cellText_eq_specCell, sampleColor,
      String.append_assoc, List.append_assoc, List.singleton_append]

theorem renderRow_eq (img : Image) (termCols termRows : Int) (y : Nat) (cv : Canvas) :
    renderRow img termCols termRows (y : Int) cv =
      { buf := cv.buf ++ specRow img termCols termRows y,
        reads := cv.reads ++ (List.range termCols.toNat).map
          (fun (x : Nat) => samplePoint img termCols termRows (x : Int) (y : Int)) } := by
  have e : "\x1b[0m\n" = "\x1b[0m" ++ "\n" := by decide
  simp only [renderRow, forRange, foldl_renderCell, specRow, String.append_assoc, e]

/-- The points `render` looks up while composing row `y`. -/
theorem foldl_renderRow (img : Image) (termCols termRows : Int) (l : List Nat) (cv : Canvas) :
    List.foldl (fun st (i : Nat) => renderRow img termCols termRows (i : Int) st) cv l =
      { buf := cv.buf ++ String.join (l.map (specRow img termCols termRows)),
        reads := cv.reads ++ (l.map (fun (y : Nat) => (List.range termCols.toNat).map
          (fun (x : Nat) => samplePoint img termCols termRows (x : Int) (y : Int)))).flatten } := by
  induction l generalizing cv with
  | nil => simp [String.join]
  | cons a l ih =>
    rw [List.foldl_cons, ih, renderRow_eq]
    simp only [List.map_cons, join_cons, String.append_assoc, List.flatten_cons, List.append_assoc]

/-- The buffer and the lookups of `render` at a given geometry. -/
theorem renderAt_eq (img : Image) (termCols termRows elapsed : Int) :
    renderAt img termCols termRows elapsed =
      { buf := specBuffer img termCols termRows elapsed,
        reads := ((List.range termRows.toNat).map (fun (y : Nat) => (List.range termCols.toNat).map
          (fun (x : Nat) => samplePoint img termCols termRows (x : Int) (y : Int)))).flatten } := by
  simp only [renderAt, forRange, foldl_renderRow, specBuffer, specGrid, specOverlay,
    String.append_assoc, List.nil_append]

/-- C1.  For every frame, every geometry and every elapsed time, the buffer built by
`render` is exactly: cursor home; for each row in order the cells of the columns in order
(colour sequence with the decimal channel values of the sampled pixel, block glyph), then
style reset and line feed; then the cursor position `ESC[rows;startColH`, the white on
black style, the overlay text and the style reset. -/
theorem render_buffer_exact (img : Image) (columns rows elapsed : Int) (q : TermSize) :
    (renderAt img columns rows elapsed).buf = specBuffer img columns rows elapsed ∧
    render img q elapsed = specBuffer img (termSize q).1 (termSize q).2 elapsed := by
  constructor
  · rw [renderAt_eq]
  · unfold render
    rw [renderAt_eq]

/-! ## The start column of the overlay (C6) -/

theorem textCol_eq_max (columns : Int) (text : String) :
    textCol columns text = max 1 ((columns - (text.utf8ByteSize : Int)) / 2) := by
  unfold textCol
  simp only []
  by_cases h : 0 ≤ columns - (text.utf8ByteSize : Int)
  · rw [Int.tdiv_eq_ediv h (by norm_num)]
    by_cases h2 : (columns - (text.utf8ByteSize : Int)) / 2 < 1
    · rw [if_pos h2, max_eq_left (by omega)]
    · rw [if_neg h2, max_eq_right (by omega)]
  · have h3 : Int.tdiv (columns - (text.utf8ByteSize : Int)) 2 ≤ 0 := by
      have h4 : Int.tdiv (-(columns - (text.utf8ByteSize : Int))) 2 =
          (-(columns - (text.utf8ByteSize : Int))) / 2 := Int.tdiv_eq_ediv (by omega) (by norm_num)
      rw [Int.neg_tdiv] at h4
      omega
    rw [if_pos (by omega), max_eq_left (by omega)]

/-- C6.  The start column of the overlay is `max(1, (columns - L) / 2)` with integer
division, `L` being the length of the overlay text; it is at least 1 for every `columns`
and every text; for `L = 16` it is 32 at 80 columns and 1 at 10 columns; and the buffer
carries that column in its cursor-position sequence followed by the whole text, which is
not truncated whatever the width. -/
theorem textCol_spec (img : Image) (columns rows elapsed : Int) (text : String) :
    textCol columns text = max 1 ((columns - (text.utf8ByteSize : Int)) / 2) ∧
    1 ≤ textCol columns text ∧
    (text.utf8ByteSize = 16 → textCol 80 text = 32 ∧ textCol 10 text = 1) ∧
    (renderAt img columns rows elapsed).buf =
      "\x1b[H" ++ specGrid img columns rows ++
        ("\x1b[" ++ fmtInt rows ++ ";" ++
          fmtInt (max 1 ((columns - ((formatDuration elapsed).utf8ByteSize : Int)) / 2)) ++ "H" ++
          "\x1b[38;2;255;255;255;48;2;0;0;0m" ++ formatDuration elapsed ++ "\x1b[0m") := by
  refine ⟨textCol_eq_max columns text, ?_, ?_, ?_⟩
  · rw [textCol_eq_max]
    exact le_max_left _ _
  · intro h
    rw [textCol_eq_max, textCol_eq_max, h]
    decide
  · rw [renderAt_eq, ← textCol_eq_max]
    rfl

/-- C6 at the overlay text of a fresh start, which is 16 bytes long. -/
theorem textCol_spec_witness :
    (formatDuration 0).utf8ByteSize = 16 ∧
    textCol 80 (formatDuration 0) = 32 ∧ textCol 10 (formatDuration 0) = 1 :=
  ⟨by decide,
    (textCol_spec ⟨0, 0, 1, 1, fun _ _ => ⟨0, 0, 0, 255⟩⟩ 80 24 0 (formatDuration 0)).2.2.1 (by decide)⟩

/-! ## The geometry of a tick (C8) -/

/-- C8.  The geometry `render` uses is `(80, 24)` when the size query returns an error
or reports 0 columns or 0 rows, and the reported size otherwise; it is never zero in
either dimension, and positive in both when the query reports non-negative values. -/
theorem termSize_spec (img : Image) (q : TermSize) (elapsed : Int) :
    (q.err = true ∨ q.width = 0 ∨ q.height = 0 → termSize q = (80, 24)) ∧
    (q.err = false ∧ q.width ≠ 0 ∧ q.height ≠ 0 → termSize q = (q.width, q.height)) ∧
    ((termSize q).1 ≠ 0 ∧ (termSize q).2 ≠ 0) ∧
    (0 ≤ q.width ∧ 0 ≤ q.height → 0 < (termSize q).1 ∧ 0 < (termSize q).2) ∧
    render img q elapsed = (renderAt img (termSize q).1 (termSize q).2 elapsed).buf := by
  have key : (q.err = true ∨ q.width = 0 ∨ q.height = 0 → termSize q = (80, 24)) ∧
      (q.err = false ∧ q.width ≠ 0 ∧ q.height ≠ 0 → termSize q = (q.width, q.height)) := by
    constructor
    · intro h
      unfold termSize
      rw [if_pos]
      simpa [or_assoc] using h
    · rintro ⟨h1, h2, h3⟩
      unfold termSize
      rw [if_neg]
      simp [h1, h2, h3]
  refine ⟨key.1, key.2, ?_, ?_, rfl⟩
  · by_cases h : q.err = true ∨ q.width = 0 ∨ q.height = 0
    · rw [key.1 h]
      decide
    · have h' : q.err = false ∧ q.width ≠ 0 ∧ q.height ≠ 0 := by
        simpa [not_or] using h
      rw [key.2 h']
      exact ⟨h'.2.1, h'.2.2⟩
  · rintro ⟨hw, hh⟩
    by_cases h : q.err = true ∨ q.width = 0 ∨ q.height = 0
    · rw [key.1 h]
      decide
    · have h' : q.err = false ∧ q.width ≠ 0 ∧ q.height ≠ 0 := by
        simpa [not_or] using h
      rw [key.2 h']
      exact ⟨lt_of_le_of_ne hw (Ne.symm h'.2.1), lt_of_le_of_ne hh (Ne.symm h'.2.2)⟩

/-- C8 at a query that reports 0 columns and 30 rows (both values are replaced), at a
failed query, and at a query that reports 132 by 43. -/
theorem termSize_spec_witness :
    termSize ⟨0, 30, false⟩ = (80, 24) ∧ termSize ⟨132, 43, true⟩ = (80, 24) ∧
    termSize ⟨132, 43, false⟩ = (132, 43) :=
  ⟨(termSize_spec ⟨0, 0, 1, 1, fun _ _ => ⟨0, 0, 0, 255⟩⟩ ⟨0, 30, false⟩ 0).1 (by decide),
    (termSize_spec ⟨0, 0, 1, 1, fun _ _ => ⟨0, 0, 0, 255⟩⟩ ⟨132, 43, true⟩ 0).1 (by decide),
    (termSize_spec ⟨0, 0, 1, 1, fun _ _ => ⟨0, 0, 0, 255⟩⟩ ⟨132, 43, false⟩ 0).2.1 (by decide)⟩

/-! ## `float64` arithmetic: lemmas -/

/-- The model on well-known values: `1.0 / 3.0 = 0x1.5555555555555p-2`,
`1.0 / 10.0 = 0x1.999999999999ap-4`, `3.0 * (1.0 / 3.0) = 1.0`, `float64(2^53 + 1) = 2^53`,
`int(7.0 / 2.0) = 3`, `1.0 / 0.0 = +Inf` and `0.0 / 0.0 = NaN`. -/
theorem F64_known_values :
    F64.div (F64.ofInt 1) (F64.ofInt 3) = F64.finite false 0x15555555555555 (-54) ∧
    F64.div (F64.ofInt 1) (F64.ofInt 10) = F64.finite false 0x1999999999999a (-56) ∧
    F64.mul (F64.ofInt 3) (F64.div (F64.ofInt 1) (F64.ofInt 3)) = F64.finite false (2 ^ 53) (-53) ∧
    F64.ofInt (2 ^ 53 + 1) = F64.finite false (2 ^ 52) 1 ∧
    F64.toInt (F64.div (F64.ofInt 7) (F64.ofInt 2)) = 3 ∧
    F64.div (F64.ofInt 1) (F64.ofInt 0) = F64.inf false ∧
    F64.div (F64.ofInt 0) (F64.ofInt 0) = F64.nan := by
  refine ⟨by decide, by decide, by decide, by decide, by decide, by decide, by decide⟩

theorem log2Fuel_spec (fuel n : Nat) (h1 : 0 < n) (h2 : n ≤ fuel) :
    2 ^ log2Fuel fuel n ≤ n ∧ n < 2 ^ (log2Fuel fuel n + 1) := by
  induction fuel generalizing n with
  | zero => omega
  | succ f ih =>
    unfold log2Fuel
    by_cases h : n < 2
    · rw [if_pos h]
      constructor
      · simpa using h1
      · simpa using h
    · rw [if_neg h]
      obtain ⟨ih1, ih2⟩ := ih (n / 2) (by omega) (by omega)
      rw [pow_succ, pow_succ]
      constructor <;> omega

theorem ilog2_spec (n : Nat) (h : 0 < n) : 2 ^ ilog2 n ≤ n ∧ n < 2 ^ (ilog2 n + 1) :=
  log2Fuel_spec n n h le_rfl

/-- Rounding a scaled quotient to the nearest integer, ties to even, is within one half. -/
theorem nearest_within_half (num den : Nat) (hden : 0 < den) :
    let q := num / den
    let r := num % den
    let m : Nat := if 2 * r < den then q else if den < 2 * r then q + 1 else if q % 2 = 0 then q else q + 1
    2 * |(m : ℚ) - (num : ℚ) / den| ≤ 1 := by
  intro q r m
  have hd : (0 : ℚ) < den := by exact_mod_cast hden
  have hnum : (num : ℚ) = den * q + r := by
    have := Nat.div_add_mod num den
    exact_mod_cast this.symm
  have hr : r < den := Nat.mod_lt _ hden
  have key : (m : ℚ) - (num : ℚ) / den = ((m : ℚ) * den - num) / den := by
    field_simp
  rw [key, abs_div, abs_of_pos hd, ← mul_div_assoc, div_le_one hd]
  have hm : m = q ∧ 2 * r ≤ den ∨ m = q + 1 ∧ den ≤ 2 * r := by
    simp only [m]
    split_ifs <;> omega
  rcases hm with ⟨hm, h⟩ | ⟨hm, h⟩
  · rw [hm, hnum]
    have h' : (2 : ℚ) * r ≤ den := by exact_mod_cast h
    have e : (q : ℚ) * den - (den * q + r) = -r := by ring
    rw [e, abs_neg, abs_of_nonneg (by positivity)]
    exact h'
  · rw [hm, hnum]
    have h' : (den : ℚ) ≤ 2 * r := by exact_mod_cast h
    have hr' : (r : ℚ) < den := by exact_mod_cast hr
    have e : ((q + 1 : Nat) : ℚ) * den - (den * q + r) = den - r := by push_cast; ring
    rw [e, abs_of_nonneg (by linarith)]
    linarith

/-- What `F64.round` returns for a positive quotient: a significand `m` and an exponent
`e` with `a / b` in `[2^52, 2^53) * 2^e` and `m * 2^e` within half a unit `2^e` of it. -/
theorem round_spec (neg : Bool) (a b : Nat) (ha : 0 < a) (hb : 0 < b) :
    ∃ (m : Nat) (e : Int), F64.round neg a b = F64.finite neg m e ∧
      2 * |(m : ℚ) * (2 : ℚ) ^ e - (a : ℚ) / b| ≤ (2 : ℚ) ^ e ∧
      2 ^ 52 * (2 : ℚ) ^ e ≤ (a : ℚ) / b ∧ (a : ℚ) / b < 2 ^ 53 * (2 : ℚ) ^ e := by
  obtain ⟨hla1, hla2⟩ := ilog2_spec a ha
  obtain ⟨hlb1, hlb2⟩ := ilog2_spec b hb
  set la := ilog2 a with hla
  set lb := ilog2 b with hlb
  set e0 : Int := (la : Int) - (lb : Int) - 52 with he0
  set n0 : Nat := a * 2 ^ (-e0).toNat with hn0
  set den : Nat := b * 2 ^ e0.toNat with hden
  set low : Bool := decide (n0 < 2 ^ 52 * den) with hlow
  set num : Nat := if low then 2 * n0 else n0 with hnum
  set e : Int := if low then e0 - 1 else e0 with he
  set m : Nat := if 2 * (num % den) < den then num / den else
    if den < 2 * (num % den) then num / den + 1 else
    if num / den % 2 = 0 then num / den else num / den + 1 with hm
  have hdenpos : 0 < den := Nat.mul_pos hb (pow_pos (by norm_num) _)
  have hA1 : (2 : ℚ) ^ la ≤ a := by exact_mod_cast hla1
  have hA2 : (a : ℚ) < 2 * 2 ^ la := by
    have : a < 2 * 2 ^ la := by rw [pow_succ] at hla2; omega
    exact_mod_cast this
  have hB1 : (2 : ℚ) ^ lb ≤ b := by exact_mod_cast hlb1
  have hB2 : (b : ℚ) < 2 * 2 ^ lb := by
    have : b < 2 * 2 ^ lb := by rw [pow_succ] at hlb2; omega
    exact_mod_cast this
  have hBpos : (0 : ℚ) < b := by exact_mod_cast hb
  have hApos : (0 : ℚ) < a := by exact_mod_cast ha
  have h2 : (2 : ℚ) ≠ 0 := by norm_num
  -- the scaling factor `Z = 2 ^ (-e0)`
  set Z : ℚ := (2 : ℚ) ^ (-e0) with hZ
  have hZpos : 0 < Z := zpow_pos (by norm_num) _
  have hZe0 : Z * (2 : ℚ) ^ e0 = 1 := by
    rw [hZ, ← zpow_add₀ h2]
    simp
  have hF1 : (2 : ℚ) ^ (-e0).toNat = (2 : ℚ) ^ e0.toNat * Z := by
    rw [hZ, ← zpow_natCast, ← zpow_natCast, ← zpow_add₀ h2]
    congr 1
    omega
  have hF2 : (2 : ℚ) ^ la * Z = 2 ^ 52 * 2 ^ lb := by
    have e1 : (2 : ℚ) ^ la * Z = (2 : ℚ) ^ ((la : Int) + -e0) := by
      rw [hZ, zpow_add₀ h2, zpow_natCast]
    have e2 : (2 : ℚ) ^ 52 * 2 ^ lb = (2 : ℚ) ^ ((52 : Int) + (lb : Int)) := by
      rw [zpow_add₀ h2, zpow_natCast]
      norm_num
    rw [e1, e2]
    congr 1
    omega
  have hQpos : (0 : ℚ) < (2 : ℚ) ^ e0.toNat := by positivity
  have hn0c : (n0 : ℚ) = a * Z * 2 ^ e0.toNat := by
    rw [hn0]
    push_cast
    rw [hF1]
    ring
  have hdenc : (den : ℚ) = b * 2 ^ e0.toNat := by
    rw [hden]
    push_cast
    ring
  have hdenq : (0 : ℚ) < den := by exact_mod_cast hdenpos
  -- `n0 / den` lies strictly between `2^51` and `2^53`
  have hS1 : (2 : ℚ) ^ 51 * den < n0 := by
    rw [hn0c, hdenc]
    have : (2 : ℚ) ^ 51 * b < a * Z := by
      calc (2 : ℚ) ^ 51 * b < 2 ^ 51 * (2 * 2 ^ lb) := by
            apply mul_lt_mul_of_pos_left hB2 (by positivity)
        _ = 2 ^ la * Z := by rw [hF2]; ring
        _ ≤ a * Z := by apply mul_le_mul_of_nonneg_right hA1 hZpos.le
    nlinarith
  have hS2 : (n0 : ℚ) < 2 ^ 53 * den := by
    rw [hn0c, hdenc]
    have : a * Z < (2 : ℚ) ^ 53 * b := by
      calc a * Z < 2 * 2 ^ la * Z := by
            apply mul_lt_mul_of_pos_right hA2 hZpos
        _ = 2 ^ 53 * 2 ^ lb := by rw [mul_assoc, hF2]; ring
        _ ≤ 2 ^ 53 * b := by apply mul_le_mul_of_nonneg_left hB1 (by positivity)
    nlinarith
  -- after the adjustment `num / den` lies in `[2^52, 2^53)` and `num / den * 2^e = a / b`
  have hT1 : (2 : ℚ) ^ 52 * den ≤ num := by
    by_cases h : n0 < 2 ^ 52 * den
    · have hl : low = true := by rw [hlow]; exact decide_eq_true h
      rw [hnum, hl]
      simp only [if_true]
      push_cast
      linarith
    · have hl : low = false := by rw [hlow]; exact decide_eq_false h
      rw [hnum, hl]
      simp only [Bool.false_eq_true, if_false]
      have : 2 ^ 52 * den ≤ n0 := by omega
      exact_mod_cast this
  have hT2 : (num : ℚ) < 2 ^ 53 * den := by
    by_cases h : n0 < 2 ^ 52 * den
    · have hl : low = true := by rw [hlow]; exact decide_eq_true h
      rw [hnum, hl]
      simp only [if_true]
      have : (n0 : ℚ) < 2 ^ 52 * den := by exact_mod_cast h
      push_cast
      linarith
    · have hl : low = false := by rw [hlow]; exact decide_eq_false h
      rw [hnum, hl]
      simp only [Bool.false_eq_true, if_false]
      exact hS2
  have hval : (num : ℚ) / den * (2 : ℚ) ^ e = (a : ℚ) / b := by
    have hbase : (n0 : ℚ) / den * (2 : ℚ) ^ e0 = (a : ℚ) / b := by
      rw [hn0c, hdenc]
      field_simp
      calc (a : ℚ) * Z * 2 ^ e0.toNat * 2 ^ e0 * b = a * (Z * 2 ^ e0) * 2 ^ e0.toNat * b := by ring
        _ = a * (b * 2 ^ e0.toNat) := by rw [hZe0]; ring
    by_cases h : n0 < 2 ^ 52 * den
    · have hl : low = true := by rw [hlow]; exact decide_eq_true h
      rw [hnum, he, hl]
      simp only [if_true]
      rw [zpow_sub₀ h2, zpow_one, ← hbase]
      push_cast
      field_simp
      ring
    · have hl : low = false := by rw [hlow]; exact decide_eq_false h
      rw [hnum, he, hl]
      simp only [Bool.false_eq_true, if_false]
      exact hbase
  have hhalf := nearest_within_half num den hdenpos
  simp only [] at hhalf
  rw [← hm] at hhalf
  have hEpos : (0 : ℚ) < (2 : ℚ) ^ e := zpow_pos (by norm_num) _
  refine ⟨m, e, ?_, ?_, ?_, ?_⟩
  · unfold F64.round
    rw [if_neg (by omega)]
  · have e1 : (m : ℚ) * 2 ^ e - (a : ℚ) / b = ((m : ℚ) - (num : ℚ) / den) * 2 ^ e := by
      rw [← hval]
      ring
    rw [e1, abs_mul, abs_of_pos hEpos, ← mul_assoc]
    calc 2 * |(m : ℚ) - (num : ℚ) / den| * (2 : ℚ) ^ e ≤ 1 * (2 : ℚ) ^ e :=
          mul_le_mul_of_nonneg_right hhalf hEpos.le
      _ = (2 : ℚ) ^ e := one_mul _
  · rw [← hval]
    apply mul_le_mul_of_nonneg_right _ hEpos.le
    rw [le_div_iff₀ hdenq]
    exact hT1
  · rw [← hval]
    apply mul_lt_mul_of_pos_right _ hEpos
    rw [div_lt_iff₀ hdenq]
    exact hT2

/-- Rounding a non-negative quotient: the relative error is at most `2^-53`. -/
theorem round_approx (a b : Nat) (hb : 0 < b) :
    ∃ (m : Nat) (e : Int), F64.round false a b = F64.finite false m e ∧
      |(m : ℚ) * (2 : ℚ) ^ e - (a : ℚ) / b| ≤ (a : ℚ) / b / 2 ^ 53 := by
  rcases Nat.eq_zero_or_pos a with ha | ha
  · refine ⟨0, 0, ?_, ?_⟩
    · simp [F64.round, ha]
    · simp [ha]
  · obtain ⟨m, e, h1, h2, h3, _⟩ := round_spec false a b ha hb
    refine ⟨m, e, h1, ?_⟩
    rw [le_div_iff₀ (by positivity)]
    have hE : (0 : ℚ) < (2 : ℚ) ^ e := zpow_pos (by norm_num) _
    nlinarith

/-- Rounding is exact on the integers below `2^53`. -/
theorem round_exact (a b n : Nat) (hb : 0 < b) (hab : a = n * b) (hn : n < 2 ^ 53) :
    ∃ (m : Nat) (e : Int), F64.round false a b = F64.finite false m e ∧
      (m : ℚ) * (2 : ℚ) ^ e = n := by
  rcases Nat.eq_zero_or_pos n with h0 | hpos
  · refine ⟨0, 0, ?_, ?_⟩
    · simp [F64.round, hab, h0]
    · simp [h0]
  · have ha : 0 < a := by rw [hab]; exact Nat.mul_pos hpos hb
    obtain ⟨m, e, h1, h2, h3, _⟩ := round_spec false a b ha hb
    refine ⟨m, e, h1, ?_⟩
    have hbq : (0 : ℚ) < b := by exact_mod_cast hb
    have hq : (a : ℚ) / b = n := by
      rw [hab]
      push_cast
      field_simp
    rw [hq] at h2 h3
    have hnq : (n : ℚ) < 2 ^ 53 := by exact_mod_cast hn
    have h2' : (2 : ℚ) ≠ 0 := by norm_num
    -- the exponent is not positive
    have he : e ≤ 0 := by
      by_contra hcon
      have h1e : (1 : Int) ≤ e := by omega
      have : (2 : ℚ) ^ (1 : Int) ≤ (2 : ℚ) ^ e := zpow_le_zpow_right₀ (by norm_num) h1e
      rw [zpow_one] at this
      nlinarith
    set k : Nat := (-e).toNat with hk
    have hke : (2 : ℚ) ^ e * (2 : ℚ) ^ k = 1 := by
      rw [← zpow_natCast, ← zpow_add₀ h2']
      have : e + (k : Int) = 0 := by omega
      rw [this, zpow_zero]
    have hKpos : (0 : ℚ) < (2 : ℚ) ^ k := by positivity
    have hEpos : (0 : ℚ) < (2 : ℚ) ^ e := zpow_pos (by norm_num) _
    -- both `m` and `n * 2^k` are integers, half a unit apart at most
    have hdiff : 2 * |(m : ℚ) - (n : ℚ) * 2 ^ k| ≤ 1 := by
      have e1 : (m : ℚ) - (n : ℚ) * 2 ^ k = ((m : ℚ) * 2 ^ e - n) * 2 ^ k := by
        calc (m : ℚ) - (n : ℚ) * 2 ^ k = (m : ℚ) * ((2 : ℚ) ^ e * 2 ^ k) - n * 2 ^ k := by
              rw [hke, mul_one]
          _ = ((m : ℚ) * 2 ^ e - n) * 2 ^ k := by ring
      rw [e1, abs_mul, abs_of_pos hKpos, ← mul_assoc]
      calc 2 * |(m : ℚ) * 2 ^ e - n| * 2 ^ k ≤ (2 : ℚ) ^ e * 2 ^ k :=
            mul_le_mul_of_nonneg_right h2 hKpos.le
        _ = 1 := hke
    have hint : (m : Int) = (n : Int) * 2 ^ k := by
      have hz : 2 * |(m : Int) - (n : Int) * 2 ^ k| ≤ 1 := by
        have : ((2 * |(m : Int) - (n : Int) * 2 ^ k| : Int) : ℚ) ≤ ((1 : Int) : ℚ) := by
          push_cast
          exact hdiff
        exact_mod_cast this
      have : |(m : Int) - (n : Int) * 2 ^ k| = 0 := by
        have := abs_nonneg ((m : Int) - (n : Int) * 2 ^ k)
        omega
      have := abs_eq_zero.mp this
      omega
    have hmq : (m : ℚ) = (n : ℚ) * 2 ^ k := by exact_mod_cast hint
    rw [hmq, mul_assoc, mul_comm ((2 : ℚ) ^ k), hke, mul_one]

/-- Conversion of an integer in `[0, 2^53)` to `float64` is exact. -/
theorem ofInt_exact (n : Int) (h0 : 0 ≤ n) (h1 : n < 2 ^ 53) :
    ∃ (m : Nat) (e : Int), F64.ofInt n = F64.finite false m e ∧ (m : ℚ) * (2 : ℚ) ^ e = n := by
  have hneg : decide (n < 0) = false := decide_eq_false (by omega)
  obtain ⟨m, e, h, hv⟩ := round_exact n.natAbs 1 n.natAbs (by norm_num) (by simp) (by omega)
  refine ⟨m, e, ?_, ?_⟩
  · unfold F64.ofInt
    rw [hneg, h]
  · rw [hv]
    have hz : (n.natAbs : Int) = n := by omega
    calc ((n.natAbs : Nat) : ℚ) = (((n.natAbs : Nat) : Int) : ℚ) := (Int.cast_natCast _).symm
      _ = (n : ℚ) := by rw [hz]

/-- Division of non-negative finite values is the rounding of their quotient. -/
theorem div_eq_round (m1 m2 : Nat) (e1 e2 : Int) (h2 : m2 ≠ 0) :
    ∃ (a b : Nat), 0 < b ∧
      F64.div (F64.finite false m1 e1) (F64.finite false m2 e2) = F64.round false a b ∧
      (a : ℚ) / b = ((m1 : ℚ) * (2 : ℚ) ^ e1) / ((m2 : ℚ) * (2 : ℚ) ^ e2) := by
  refine ⟨m1 * 2 ^ (e1 - e2).toNat, m2 * 2 ^ (e2 - e1).toNat, ?_, ?_, ?_⟩
  · exact Nat.mul_pos (Nat.pos_of_ne_zero h2) (pow_pos (by norm_num) _)
  · simp [F64.div, h2]
  · have h2' : (2 : ℚ) ≠ 0 := by norm_num
    have hm2 : (m2 : ℚ) ≠ 0 := by exact_mod_cast h2
    have key : (2 : ℚ) ^ (e1 - e2).toNat * (2 : ℚ) ^ e2 = (2 : ℚ) ^ e1 * (2 : ℚ) ^ (e2 - e1).toNat := by
      rw [← zpow_natCast, ← zpow_natCast, ← zpow_add₀ h2', ← zpow_add₀ h2']
      congr 1
      omega
    have hE2 : (2 : ℚ) ^ e2 ≠ 0 := zpow_ne_zero _ h2'
    have hP : (2 : ℚ) ^ (e2 - e1).toNat ≠ 0 := pow_ne_zero _ h2'
    push_cast
    rw [div_eq_div_iff (mul_ne_zero hm2 hP) (mul_ne_zero hm2 hE2)]
    calc (m1 : ℚ) * 2 ^ (e1 - e2).toNat * (m2 * 2 ^ e2)
        = m1 * m2 * ((2 : ℚ) ^ (e1 - e2).toNat * (2 : ℚ) ^ e2) := by ring
      _ = m1 * m2 * ((2 : ℚ) ^ e1 * (2 : ℚ) ^ (e2 - e1).toNat) := by rw [key]
      _ = m1 * 2 ^ e1 * (m2 * 2 ^ (e2 - e1).toNat) := by ring

/-- Multiplication of non-negative finite values is the rounding of their product. -/
theorem mul_eq_round (m1 m2 : Nat) (e1 e2 : Int) :
    ∃ (a b : Nat), 0 < b ∧
      F64.mul (F64.finite false m1 e1) (F64.finite false m2 e2) = F64.round false a b ∧
      (a : ℚ) / b = ((m1 : ℚ) * (2 : ℚ) ^ e1) * ((m2 : ℚ) * (2 : ℚ) ^ e2) := by
  refine ⟨m1 * m2 * 2 ^ (e1 + e2).toNat, 2 ^ (-(e1 + e2)).toNat, ?_, ?_, ?_⟩
  · exact pow_pos (by norm_num) _
  · simp [F64.mul]
  · have h2' : (2 : ℚ) ≠ 0 := by norm_num
    have key : (2 : ℚ) ^ (e1 + e2).toNat = (2 : ℚ) ^ e1 * (2 : ℚ) ^ e2 * (2 : ℚ) ^ (-(e1 + e2)).toNat := by
      rw [← zpow_natCast, ← zpow_natCast, ← zpow_add₀ h2', ← zpow_add₀ h2']
      congr 1
      omega
    have hP : (2 : ℚ) ^ (-(e1 + e2)).toNat ≠ 0 := pow_ne_zero _ h2'
    push_cast
    rw [div_eq_iff hP, key]
    ring

/-- Conversion to `int` of a non-negative finite value below `2^63` is its integer part. -/
theorem toInt_spec (m : Nat) (e : Int) (hlt : (m : ℚ) * (2 : ℚ) ^ e < 2 ^ 63) :
    ((F64.toInt (F64.finite false m e) : Int) : ℚ) ≤ (m : ℚ) * (2 : ℚ) ^ e ∧
      (m : ℚ) * (2 : ℚ) ^ e < ((F64.toInt (F64.finite false m e) : Int) : ℚ) + 1 ∧
      0 ≤ F64.toInt (F64.finite false m e) := by
  have h2' : (2 : ℚ) ≠ 0 := by norm_num
  set mag : Nat := if 0 ≤ e then m * 2 ^ e.toNat else m / 2 ^ (-e).toNat with hmag
  have hbounds : (mag : ℚ) ≤ (m : ℚ) * (2 : ℚ) ^ e ∧ (m : ℚ) * (2 : ℚ) ^ e < (mag : ℚ) + 1 := by
    by_cases he : 0 ≤ e
    · have hm : mag = m * 2 ^ e.toNat := by rw [hmag, if_pos he]
      have hz : (2 : ℚ) ^ e = (2 : ℚ) ^ e.toNat := by
        rw [← zpow_natCast]
        congr 1
        omega
      rw [hm, hz]
      push_cast
      constructor
      · exact le_rfl
      · linarith
    · have hm : mag = m / 2 ^ (-e).toNat := by rw [hmag, if_neg he]
      set k : Nat := (-e).toNat with hk
      have hz : (2 : ℚ) ^ e = ((2 : ℚ) ^ k)⁻¹ := by
        rw [← zpow_natCast, ← zpow_neg]
        congr 1
        omega
      have hKpos : (0 : ℚ) < (2 : ℚ) ^ k := by positivity
      have hdm := Nat.div_add_mod m (2 ^ k)
      have hmod : m % 2 ^ k < 2 ^ k := Nat.mod_lt _ (pow_pos (by norm_num) _)
      have hmq : (m : ℚ) = (2 : ℚ) ^ k * (m / 2 ^ k : Nat) + (m % 2 ^ k : Nat) := by
        exact_mod_cast hdm.symm
      have hmodq : ((m % 2 ^ k : Nat) : ℚ) < (2 : ℚ) ^ k := by exact_mod_cast hmod
      have hmodq0 : (0 : ℚ) ≤ ((m % 2 ^ k : Nat) : ℚ) := by positivity
      rw [hm, hz, ← div_eq_mul_inv, le_div_iff₀ hKpos, div_lt_iff₀ hKpos]
      constructor
      · rw [hmq]
        nlinarith
      · rw [hmq]
        nlinarith
  have hmag63 : (mag : Int) ≤ 9223372036854775807 := by
    have : (mag : ℚ) < 2 ^ 63 := lt_of_le_of_lt hbounds.1 hlt
    have : ((mag : Int) : ℚ) < ((9223372036854775808 : Int) : ℚ) := by
      push_cast
      norm_num at this ⊢
      exact this
    have : (mag : Int) < 9223372036854775808 := by exact_mod_cast this
    omega
  have hto : F64.toInt (F64.finite false m e) = (mag : Int) := by
    unfold F64.toInt
    simp only [Bool.false_eq_true, if_false]
    rw [← hmag, if_pos]
    unfold minInt64 maxInt64
    constructor
    · have : (0 : Int) ≤ (mag : Int) := Int.natCast_nonneg _
      norm_num
      omega
    · norm_num
      omega
  rw [hto]
  refine ⟨?_, ?_, Int.natCast_nonneg _⟩
  · exact_mod_cast hbounds.1
  · exact_mod_cast hbounds.2


/-- Error analysis of `x * (W / c)` computed with two roundings of relative error
`2^-53`: as long as `W * c ≤ 2^51`, `c` times the result is less than 1 away from `x * W`. -/
theorem two_roundings (W c x vs vp : ℚ) (hW : 1 ≤ W) (hc : 1 ≤ c) (hx0 : 0 ≤ x) (hxc : x ≤ c - 1)
    (hWc : W * c ≤ 2 ^ 51) (hvs0 : 0 ≤ vs) (hvs : |vs - W / c| ≤ W / c / 2 ^ 53)
    (hvp : |vp - x * vs| ≤ x * vs / 2 ^ 53) : |c * vp - x * W| < 1 := by
  have hcpos : (0 : ℚ) < c := by linarith
  have hd : (0 : ℚ) < 2 ^ 53 := by positivity
  have hA : |vs * c - W| ≤ W / 2 ^ 53 := by
    have e1 : vs * c - W = (vs - W / c) * c := by
      field_simp
    rw [e1, abs_mul, abs_of_pos hcpos]
    calc |vs - W / c| * c ≤ (W / c / 2 ^ 53) * c :=
          mul_le_mul_of_nonneg_right hvs hcpos.le
      _ = W / 2 ^ 53 := by
          field_simp
          ring
  obtain ⟨hA1, hA2⟩ := abs_le.mp hA
  obtain ⟨hB1, hB2⟩ := abs_le.mp hvp
  have hWd : W / 2 ^ 53 ≤ W := div_le_self (by linarith) (by norm_num)
  have hvsc : vs * c ≤ 2 * W := by linarith
  have hxvs : c * (x * vs / 2 ^ 53) ≤ (c - 1) * (2 * W) / 2 ^ 53 := by
    have : c * (x * vs / 2 ^ 53) = x * (vs * c) / 2 ^ 53 := by ring
    rw [this]
    apply div_le_div_of_nonneg_right _ hd.le
    exact mul_le_mul hxc hvsc (by positivity) (by linarith)
  have hxA : x * (W / 2 ^ 53) ≤ (c - 1) * W / 2 ^ 53 := by
    have : x * (W / 2 ^ 53) = x * W / 2 ^ 53 := by ring
    rw [this]
    apply div_le_div_of_nonneg_right _ hd.le
    exact mul_le_mul_of_nonneg_right hxc (by linarith)
  have hsmall : (c - 1) * (2 * W) / 2 ^ 53 + (c - 1) * W / 2 ^ 53 < 1 := by
    rw [← add_div, div_lt_one hd]
    have : (c - 1) * (2 * W) + (c - 1) * W = 3 * (W * c) - 3 * W := by ring
    rw [this]
    have h3 : (3 : ℚ) * 2 ^ 51 < 2 ^ 53 := by norm_num
    linarith
  have e1 : c * vp - x * W = c * (vp - x * vs) + x * (vs * c - W) := by ring
  rw [e1, abs_lt]
  have hcB1 : c * (-(x * vs / 2 ^ 53)) ≤ c * (vp - x * vs) :=
    mul_le_mul_of_nonneg_left hB1 hcpos.le
  have hcB2 : c * (vp - x * vs) ≤ c * (x * vs / 2 ^ 53) :=
    mul_le_mul_of_nonneg_left hB2 hcpos.le
  have hxA1 : x * (-(W / 2 ^ 53)) ≤ x * (vs * c - W) :=
    mul_le_mul_of_nonneg_left hA1 hx0
  have hxA2 : x * (vs * c - W) ≤ x * (W / 2 ^ 53) :=
    mul_le_mul_of_nonneg_left hA2 hx0
  constructor <;> linarith

/-- The float computation of a source coordinate, in exact terms: the product `c * p` of
the divisor and the rounded product `p` is less than 1 away from `x * W`, and the
coordinate is the integer part of `p`. -/
theorem srcCoord_approx (W c x : Int) (hW : 1 ≤ W) (hc : 1 ≤ c) (hx0 : 0 ≤ x) (hxc : x < c)
    (hWc : W * c ≤ 2 ^ 51) :
    ∃ p : ℚ, |(c : ℚ) * p - (x : ℚ) * W| < 1 ∧
      ((srcCoord W c x : Int) : ℚ) ≤ p ∧ p < ((srcCoord W c x : Int) : ℚ) + 1 ∧
      0 ≤ srcCoord W c x := by
  have hWq1 : (1 : ℚ) ≤ (W : ℚ) := by exact_mod_cast hW
  have hcq1 : (1 : ℚ) ≤ (c : ℚ) := by exact_mod_cast hc
  have hxq0 : (0 : ℚ) ≤ (x : ℚ) := by exact_mod_cast hx0
  have hxq : (x : ℚ) ≤ (c : ℚ) - 1 := by
    have : x ≤ c - 1 := by omega
    exact_mod_cast this
  have hWcq : (W : ℚ) * c ≤ 2 ^ 51 := by exact_mod_cast hWc
  have h51 : (2 : Int) ^ 51 = 2251799813685248 := by norm_num
  have h53 : (2 : Int) ^ 53 = 9007199254740992 := by norm_num
  have hW53 : W < 2 ^ 53 := by
    have : W * 1 ≤ W * c := Int.mul_le_mul_of_nonneg_left hc (by omega)
    omega
  have hc53 : c < 2 ^ 53 := by
    have : 1 * c ≤ W * c := Int.mul_le_mul_of_nonneg_right hW (by omega)
    omega
  obtain ⟨mx, ex, hfx, hvx⟩ := ofInt_exact x hx0 (by omega)
  obtain ⟨mW, eW, hfW, hvW⟩ := ofInt_exact W (by omega) hW53
  obtain ⟨mc, ec, hfc, hvc⟩ := ofInt_exact c (by omega) hc53
  have hmc : mc ≠ 0 := by
    intro h
    rw [h] at hvc
    simp at hvc
    linarith
  obtain ⟨a, b, hb, hdiv, hab⟩ := div_eq_round mW mc eW ec hmc
  obtain ⟨ms, es, hfs, hvs⟩ := round_approx a b hb
  rw [hab, hvW, hvc] at hvs
  obtain ⟨a', b', hb', hmul, hab'⟩ := mul_eq_round mx ms ex es
  obtain ⟨mp, ep, hfp, hvp⟩ := round_approx a' b' hb'
  rw [hab', hvx] at hvp
  have hsrc : srcCoord W c x = F64.toInt (F64.finite false mp ep) := by
    unfold srcCoord
    rw [hfx, hfW, hfc, hdiv, hfs, hmul, hfp]
  have hvs0 : (0 : ℚ) ≤ (ms : ℚ) * (2 : ℚ) ^ es := by positivity
  have hvp0 : (0 : ℚ) ≤ (mp : ℚ) * (2 : ℚ) ^ ep := by positivity
  have hkey := two_roundings (W : ℚ) c x _ _ hWq1 hcq1 hxq0 hxq hWcq hvs0 hvs hvp
  have hvplt : (mp : ℚ) * (2 : ℚ) ^ ep < 2 ^ 63 := by
    obtain ⟨_, h2⟩ := abs_lt.mp hkey
    have h4 : (x : ℚ) * W ≤ c * W := mul_le_mul_of_nonneg_right (by linarith) (by linarith)
    have h5 : (mp : ℚ) * (2 : ℚ) ^ ep ≤ c * ((mp : ℚ) * (2 : ℚ) ^ ep) :=
      le_mul_of_one_le_left hvp0 hcq1
    have h6 : (2 : ℚ) ^ 51 + 1 < 2 ^ 63 := by norm_num
    linarith
  obtain ⟨ht1, ht2, ht3⟩ := toInt_spec mp ep hvplt
  rw [← hsrc] at ht1 ht2 ht3
  exact ⟨_, hkey, ht1, ht2, ht3⟩

/-- The source coordinate in integer terms: `c * t ≤ x * W ≤ c * (t + 1)`. -/
theorem srcCoord_bracket (W c x : Int) (hW : 1 ≤ W) (hc : 1 ≤ c) (hx0 : 0 ≤ x) (hxc : x < c)
    (hWc : W * c ≤ 2 ^ 51) :
    c * srcCoord W c x ≤ x * W ∧ x * W ≤ c * (srcCoord W c x + 1) ∧ 0 ≤ srcCoord W c x := by
  obtain ⟨p, hp, ht1, ht2, ht3⟩ := srcCoord_approx W c x hW hc hx0 hxc hWc
  obtain ⟨hp1, hp2⟩ := abs_lt.mp hp
  have hcq : (0 : ℚ) < (c : ℚ) := by exact_mod_cast (by omega : 0 < c)
  have h1 : (c : ℚ) * (srcCoord W c x : Int) ≤ c * p := mul_le_mul_of_nonneg_left ht1 hcq.le
  have h2 : (c : ℚ) * p < c * ((srcCoord W c x : Int) + 1) := mul_lt_mul_of_pos_left ht2 hcq
  refine ⟨?_, ?_, ht3⟩
  · have : ((c * srcCoord W c x : Int) : ℚ) < ((x * W + 1 : Int) : ℚ) := by
      push_cast
      linarith
    have : c * srcCoord W c x < x * W + 1 := by exact_mod_cast this
    omega
  · have : ((x * W - 1 : Int) : ℚ) < ((c * (srcCoord W c x + 1) : Int) : ℚ) := by
      push_cast
      linarith
    have : x * W - 1 < c * (srcCoord W c x + 1) := by exact_mod_cast this
    omega

/-- The source coordinate is `⌊x * W / c⌋`, or one less when `c` divides `x * W`. -/
theorem srcCoord_near (W c x : Int) (hW : 1 ≤ W) (hc : 1 ≤ c) (hx0 : 0 ≤ x) (hxc : x < c)
    (hWc : W * c ≤ 2 ^ 51) :
    x * W / c - 1 ≤ srcCoord W c x ∧ srcCoord W c x ≤ x * W / c ∧
      (x * W % c ≠ 0 → srcCoord W c x = x * W / c) ∧
      0 ≤ srcCoord W c x ∧ srcCoord W c x ≤ W - 1 := by
  obtain ⟨h1, h2, h3⟩ := srcCoord_bracket W c x hW hc hx0 hxc hWc
  have hcpos : 0 < c := by omega
  have hdm := Int.ediv_add_emod (x * W) c
  have hmod0 := Int.emod_nonneg (x * W) (by omega : c ≠ 0)
  have hmodlt := Int.emod_lt_of_pos (x * W) hcpos
  set t := srcCoord W c x with ht
  set k := x * W / c with hk
  set r := x * W % c with hr
  have hle : t ≤ k := by
    by_contra hcon
    have : k + 1 ≤ t := by omega
    have : c * (k + 1) ≤ c * t := Int.mul_le_mul_of_nonneg_left this hcpos.le
    nlinarith
  have hge : k - 1 ≤ t := by
    by_contra hcon
    have : t + 1 ≤ k - 1 := by omega
    have : c * (t + 1) ≤ c * (k - 1) := Int.mul_le_mul_of_nonneg_left this hcpos.le
    nlinarith
  have hkW : k ≤ W - 1 := by
    by_contra hcon
    have : W ≤ k := by omega
    have h4 : c * W ≤ c * k := Int.mul_le_mul_of_nonneg_left this hcpos.le
    have h5 : x * W ≤ (c - 1) * W := Int.mul_le_mul_of_nonneg_right (by omega) (by omega)
    nlinarith
  refine ⟨hge, hle, ?_, h3, by omega⟩
  intro hr0
  by_contra hcon
  have htk : t + 1 = k := by omega
  rw [htk] at h2
  have : r = 0 := by nlinarith
  exact hr0 this

/-- At identity scale the source coordinate is the destination coordinate. -/
theorem srcCoord_identity (W x : Int) (hW : 1 ≤ W) (hx0 : 0 ≤ x) (hx53 : x < 2 ^ 53) :
    srcCoord W W x = x := by
  have h53 : (2 : Int) ^ 53 = 9007199254740992 := by norm_num
  have h2' : (2 : ℚ) ≠ 0 := by norm_num
  obtain ⟨mx, ex, hfx, hvx⟩ := ofInt_exact x hx0 hx53
  -- the conversion of `W` is finite and not zero, whether or not it is exact
  obtain ⟨mW, eW, hfW, hmW⟩ : ∃ (m : Nat) (e : Int), F64.ofInt W = F64.finite false m e ∧ m ≠ 0 := by
    have hneg : decide (W < 0) = false := decide_eq_false (by omega)
    obtain ⟨m, e, h, hnear, hlo, _⟩ := round_spec false W.natAbs 1 (by omega) (by norm_num)
    refine ⟨m, e, ?_, ?_⟩
    · unfold F64.ofInt
      rw [hneg, h]
    · intro hm0
      rw [hm0] at hnear
      have hE : (0 : ℚ) < (2 : ℚ) ^ e := zpow_pos (by norm_num) _
      simp only [Nat.cast_zero, zero_mul, zero_sub, abs_neg] at hnear
      rw [abs_of_nonneg (by positivity)] at hnear
      nlinarith
  -- the scale factor is exactly 1
  obtain ⟨a, b, hb, hdiv, hab⟩ := div_eq_round mW mW eW eW hmW
  have hab1 : a = 1 * b := by
    have hv : ((mW : ℚ) * (2 : ℚ) ^ eW) ≠ 0 :=
      mul_ne_zero (by exact_mod_cast hmW) (zpow_ne_zero _ h2')
    rw [div_self hv] at hab
    have hbq : (b : ℚ) ≠ 0 := by exact_mod_cast hb.ne'
    have : (a : ℚ) = b := by
      rw [div_eq_one_iff_eq hbq] at hab
      exact hab
    have : a = b := by exact_mod_cast this
    omega
  obtain ⟨ms, es, hfs, hvs⟩ := round_exact a b 1 hb hab1 (by norm_num)
  -- the product is exactly `x`
  obtain ⟨a', b', hb', hmul, hab'⟩ := mul_eq_round mx ms ex es
  have hxnat : ((x.toNat : Nat) : ℚ) = (x : ℚ) := by
    have hz : ((x.toNat : Nat) : Int) = x := by omega
    calc ((x.toNat : Nat) : ℚ) = (((x.toNat : Nat) : Int) : ℚ) := (Int.cast_natCast _).symm
      _ = (x : ℚ) := by rw [hz]
  have hab2 : a' = x.toNat * b' := by
    rw [hvx, hvs] at hab'
    have hbq : (b' : ℚ) ≠ 0 := by exact_mod_cast hb'.ne'
    have : (a' : ℚ) = (x.toNat : ℚ) * b' := by
      rw [hxnat]
      rw [div_eq_iff hbq] at hab'
      simpa using hab'
    exact_mod_cast this
  obtain ⟨mp, ep, hfp, hvp⟩ := round_exact a' b' x.toNat hb' hab2 (by omega)
  rw [hxnat] at hvp
  have hsrc : srcCoord W W x = F64.toInt (F64.finite false mp ep) := by
    unfold srcCoord
    rw [hfx, hfW, hdiv, hfs, hmul, hfp]
  have hlt : (mp : ℚ) * (2 : ℚ) ^ ep < 2 ^ 63 := by
    rw [hvp]
    have : ((x : Int) : ℚ) < ((9007199254740992 : Int) : ℚ) := by
      exact_mod_cast (by omega : x < 9007199254740992)
    push_cast at this
    have h63 : (9007199254740992 : ℚ) < 2 ^ 63 := by norm_num
    linarith
  obtain ⟨ht1, ht2, _⟩ := toInt_spec mp ep hlt
  rw [← hsrc, hvp] at ht1 ht2
  have h1 : srcCoord W W x ≤ x := by exact_mod_cast ht1
  have h2 : x < srcCoord W W x + 1 := by exact_mod_cast ht2
  omega

/-- Error analysis for the upper bound: with two roundings of relative error `2^-53` and
a divisor `c ≤ 2^51`, the computed `x * (W / c)` stays below `W` for `x ≤ c - 1`. -/
theorem two_roundings_lt (W c x vs vp : ℚ) (hW : 1 ≤ W) (hc : 1 ≤ c) (hc51 : c ≤ 2 ^ 51)
    (hxc : x ≤ c - 1) (hvs0 : 0 ≤ vs) (hvs : |vs - W / c| ≤ W / c / 2 ^ 53)
    (hvp : |vp - x * vs| ≤ x * vs / 2 ^ 53) : vp < W := by
  have hcpos : (0 : ℚ) < c := by linarith
  have hWpos : (0 : ℚ) < W := by linarith
  obtain ⟨_, hA2⟩ := abs_le.mp hvs
  obtain ⟨_, hB2⟩ := abs_le.mp hvp
  -- `vs ≤ (W / c) * (1 + δ)` and `vp ≤ x * vs * (1 + δ)`
  have h1 : vs ≤ W / c * (1 + 1 / 2 ^ 53) := by
    have : W / c * (1 + 1 / 2 ^ 53) = W / c + W / c / 2 ^ 53 := by ring
    rw [this]
    linarith
  have h2 : vp ≤ x * vs * (1 + 1 / 2 ^ 53) := by
    have : x * vs * (1 + 1 / 2 ^ 53) = x * vs + x * vs / 2 ^ 53 := by ring
    rw [this]
    linarith
  have hd : (0 : ℚ) < 1 + 1 / 2 ^ 53 := by positivity
  have h3 : x * vs ≤ (c - 1) * (W / c * (1 + 1 / 2 ^ 53)) :=
    mul_le_mul hxc h1 hvs0 (by linarith)
  have h4 : vp ≤ (c - 1) * (W / c * (1 + 1 / 2 ^ 53)) * (1 + 1 / 2 ^ 53) :=
    le_trans h2 (mul_le_mul_of_nonneg_right h3 hd.le)
  have h5 : (c - 1) * (W / c * (1 + 1 / 2 ^ 53)) * (1 + 1 / 2 ^ 53)
      = W / c * ((c - 1) * ((1 + 1 / 2 ^ 53) * (1 + 1 / 2 ^ 53))) := by ring
  have h6 : (c - 1) * (((1 : ℚ) + 1 / 2 ^ 53) * (1 + 1 / 2 ^ 53)) < c := by
    have e : ((1 : ℚ) + 1 / 2 ^ 53) * (1 + 1 / 2 ^ 53) ≤ 1 + 3 / 2 ^ 53 := by norm_num
    have h7 : (c - 1) * (((1 : ℚ) + 1 / 2 ^ 53) * (1 + 1 / 2 ^ 53)) ≤ (c - 1) * (1 + 3 / 2 ^ 53) :=
      mul_le_mul_of_nonneg_left e (by linarith)
    have h8 : (c - 1) * ((1 : ℚ) + 3 / 2 ^ 53) = c - 1 + (c - 1) * (3 / 2 ^ 53) := by ring
    have h9 : (c - 1) * ((3 : ℚ) / 2 ^ 53) ≤ 2 ^ 51 * (3 / 2 ^ 53) :=
      mul_le_mul_of_nonneg_right (by linarith) (by positivity)
    have h10 : (2 : ℚ) ^ 51 * (3 / 2 ^ 53) < 1 := by norm_num
    linarith
  have h11 : W / c * ((c - 1) * (((1 : ℚ) + 1 / 2 ^ 53) * (1 + 1 / 2 ^ 53))) < W / c * c :=
    mul_lt_mul_of_pos_left h6 (div_pos hWpos hcpos)
  have h12 : W / c * c = W := by field_simp
  linarith

/-- Without any clamp the source coordinate stays inside `0 .. W - 1`. -/
theorem srcCoord_lt (W c x : Int) (hW : 1 ≤ W) (hW53 : W ≤ 2 ^ 53) (hc : 1 ≤ c) (hc51 : c ≤ 2 ^ 51)
    (hx0 : 0 ≤ x) (hxc : x < c) : 0 ≤ srcCoord W c x ∧ srcCoord W c x ≤ W - 1 := by
  have hWq1 : (1 : ℚ) ≤ (W : ℚ) := by exact_mod_cast hW
  have hcq1 : (1 : ℚ) ≤ (c : ℚ) := by exact_mod_cast hc
  have hcq51 : (c : ℚ) ≤ 2 ^ 51 := by exact_mod_cast hc51
  have hWq53 : (W : ℚ) ≤ 2 ^ 53 := by exact_mod_cast hW53
  have hxq0 : (0 : ℚ) ≤ (x : ℚ) := by exact_mod_cast hx0
  have hxq : (x : ℚ) ≤ (c : ℚ) - 1 := by
    have : x ≤ c - 1 := by omega
    exact_mod_cast this
  have h51 : (2 : Int) ^ 51 = 2251799813685248 := by norm_num
  have h53 : (2 : Int) ^ 53 = 9007199254740992 := by norm_num
  obtain ⟨mx, ex, hfx, hvx⟩ := ofInt_exact x hx0 (by omega)
  -- `W` may be `2^53` itself, which is a power of two and converts exactly as well
  obtain ⟨mW, eW, hfW, hvW⟩ : ∃ (m : Nat) (e : Int), F64.ofInt W = F64.finite false m e ∧
      (m : ℚ) * (2 : ℚ) ^ e = W := by
    by_cases h : W < 2 ^ 53
    · exact ofInt_exact W (by omega) h
    · have hWeq : W = 9007199254740992 := by omega
      refine ⟨4503599627370496, 1, ?_, ?_⟩
      · rw [hWeq]
        decide
      · rw [hWeq]
        norm_num
  obtain ⟨mc, ec, hfc, hvc⟩ := ofInt_exact c (by omega) (by omega)
  have hmc : mc ≠ 0 := by
    intro h
    rw [h] at hvc
    simp at hvc
    linarith
  obtain ⟨a, b, hb, hdiv, hab⟩ := div_eq_round mW mc eW ec hmc
  obtain ⟨ms, es, hfs, hvs⟩ := round_approx a b hb
  rw [hab, hvW, hvc] at hvs
  obtain ⟨a', b', hb', hmul, hab'⟩ := mul_eq_round mx ms ex es
  obtain ⟨mp, ep, hfp, hvp⟩ := round_approx a' b' hb'
  rw [hab', hvx] at hvp
  have hsrc : srcCoord W c x = F64.toInt (F64.finite false mp ep) := by
    unfold srcCoord
    rw [hfx, hfW, hfc, hdiv, hfs, hmul, hfp]
  have hvs0 : (0 : ℚ) ≤ (ms : ℚ) * (2 : ℚ) ^ es := by positivity
  have hlt := two_roundings_lt (W : ℚ) c x _ _ hWq1 hcq1 hcq51 hxq hvs0 hvs hvp
  have hvplt : (mp : ℚ) * (2 : ℚ) ^ ep < 2 ^ 63 := by
    have h6 : (2 : ℚ) ^ 53 < 2 ^ 63 := by norm_num
    linarith
  obtain ⟨ht1, _, ht3⟩ := toInt_spec mp ep hvplt
  rw [← hsrc] at ht1 ht3
  refine ⟨ht3, ?_⟩
  have : ((srcCoord W c x : Int) : ℚ) < ((W : Int) : ℚ) := lt_of_le_of_lt ht1 hlt
  have : srcCoord W c x < W := by exact_mod_cast this
  omega

/-- The size bounds of the lemmas above cannot be dropped altogether: beyond `2^53` the
conversion `float64(x)` of the index itself rounds, so that the last cell of a row of
`2^54` columns over a frame one pixel wide would get coordinate 1, and the cell
`2^53 + 1` at identity scale the coordinate `2^53`. -/
theorem srcCoord_beyond_exact_range :
    srcCoord 1 (2 ^ 54) (2 ^ 54 - 1) = 1 ∧
    srcCoord (2 ^ 53 + 2) (2 ^ 53 + 2) (2 ^ 53 + 1) = 2 ^ 53 := by
  refine ⟨by decide, by decide⟩

/-! ## Sampling (C3, C4, C5) -/

theorem srcX_eq (img : Image) (termCols x : Int) : srcX img termCols x = srcCoord img.Dx termCols x :=
  rfl

theorem srcY_eq (img : Image) (termRows y : Int) : srcY img termRows y = srcCoord img.Dy termRows y :=
  rfl

/-- The points `render` looks up are the sample points of the cells of the grid. -/
theorem mem_reads (img : Image) (termCols termRows elapsed : Int) (p : Int × Int) :
    p ∈ (renderAt img termCols termRows elapsed).reads ↔
      ∃ x y : Nat, (x : Int) < termCols ∧ (y : Int) < termRows ∧
        p = samplePoint img termCols termRows (x : Int) (y : Int) := by
  rw [renderAt_eq]
  simp only [List.mem_flatten, List.mem_map, List.mem_range]
  constructor
  · rintro ⟨l, ⟨y, hy, rfl⟩, hp⟩
    rw [List.mem_map] at hp
    obtain ⟨x, hx, rfl⟩ := hp
    rw [List.mem_range] at hx
    exact ⟨x, y, by omega, by omega, rfl⟩
  · rintro ⟨x, y, hx, hy, rfl⟩
    refine ⟨_, ⟨y, by omega, rfl⟩, ?_⟩
    rw [List.mem_map]
    exact ⟨x, List.mem_range.mpr (by omega), rfl⟩

/-- C3, amended.  For a frame of width `W ≥ 1` and height `H ≥ 1`, a geometry
`columns ≥ 1`, `rows ≥ 1` with `W * columns ≤ 2^51` and `H * rows ≤ 2^51`, and a cell
`(x, y)` of the grid, the pixel `render` samples is the source pixel at
`(minX + srcX, minY + srcY)` where `srcX` is `⌊x * W / columns⌋` whenever `columns` does
not divide `x * W`, and is that value or one less when it does (the product with the
rounded scale factor can fall just below the exact quotient); likewise for `srcY`. -/
theorem sample_near_floor (img : Image) (columns rows x y : Int)
    (hW : 1 ≤ img.Dx) (hH : 1 ≤ img.Dy) (hc : 1 ≤ columns) (hr : 1 ≤ rows)
    (hx0 : 0 ≤ x) (hx : x < columns) (hy0 : 0 ≤ y) (hy : y < rows)
    (hWc : img.Dx * columns ≤ 2 ^ 51) (hHr : img.Dy * rows ≤ 2 ^ 51) :
    sampleColor img columns rows x y =
        img.At (img.minX + srcX img columns x) (img.minY + srcY img rows y) ∧
      (x * img.Dx % columns ≠ 0 → srcX img columns x = x * img.Dx / columns) ∧
      (srcX img columns x = x * img.Dx / columns ∨ srcX img columns x = x * img.Dx / columns - 1) ∧
      (y * img.Dy % rows ≠ 0 → srcY img rows y = y * img.Dy / rows) ∧
      (srcY img rows y = y * img.Dy / rows ∨ srcY img rows y = y * img.Dy / rows - 1) := by
  obtain ⟨a1, a2, a3, _, _⟩ := srcCoord_near img.Dx columns x hW hc hx0 hx hWc
  obtain ⟨b1, b2, b3, _, _⟩ := srcCoord_near img.Dy rows y hH hr hy0 hy hHr
  rw [srcX_eq, srcY_eq]
  refine ⟨rfl, a3, by omega, b3, by omega⟩

/-- C3 at the frame `twoPixels` on 98 columns: column 50 samples source column
`⌊50 * 2 / 98⌋ = 1`. -/
theorem sample_near_floor_witness : srcX twoPixels 98 50 = 1 :=
  ((sample_near_floor twoPixels 98 1 50 0 (by decide) (by decide) (by decide) (by decide)
    (by decide) (by decide) (by decide) (by decide) (by decide) (by decide)).2.1 (by decide)).trans
    (by decide)

/-- C3 as stated fails for the frame `twoPixels` on 98 columns: `⌊49 * 2 / 98⌋ = 1`, but
the cell of column 49 samples source column 0, the red pixel and not the blue one.  The
scale factor `2.0 / 98.0` is `0x1.4e5e0a72f0539p-6`, just below `1 / 49`, and its product
with `49.0` is `0x1.fffffffffffffp-1 = 0.9999999999999999`, whose integer part is 0. -/
theorem sample_floor_fails :
    (49 : Int) * twoPixels.Dx / 98 = 1 ∧
    scaleX twoPixels 98 = F64.finite false 0x14e5e0a72f0539 (-58) ∧
    F64.mul (F64.ofInt 49) (scaleX twoPixels 98) = F64.finite false 0x1fffffffffffff (-53) ∧
    srcX twoPixels 98 49 = 0 ∧
    samplePoint twoPixels 98 1 49 0 = (0, 0) ∧
    sampleColor twoPixels 98 1 49 0 = ⟨255, 0, 0, 255⟩ ∧
    twoPixels.At 1 0 = ⟨0, 0, 255, 255⟩ ∧
    sampleColor twoPixels 98 1 49 0 ≠ twoPixels.At (49 * twoPixels.Dx / 98) (0 * twoPixels.Dy / 1) := by
  refine ⟨by decide, by decide, by decide, by decide, by decide, by decide, by decide, by decide⟩

/-- C4.  Resampling at identity scale is the identity: for a frame of width `W ≥ 1` and
height `H ≥ 1`, rendering with `columns = W` and `rows = H` samples for every cell `(x, y)`
exactly the source pixel `(x, y)`.  The sides are taken up to `2^53`, the range in which
the index of a cell is a `float64` exactly; it holds every frame that fits in memory. -/
theorem sample_identity (img : Image) (x y : Int) (hW : 1 ≤ img.Dx) (hH : 1 ≤ img.Dy)
    (hW53 : img.Dx ≤ 2 ^ 53) (hH53 : img.Dy ≤ 2 ^ 53)
    (hx0 : 0 ≤ x) (hx : x < img.Dx) (hy0 : 0 ≤ y) (hy : y < img.Dy) :
    srcX img img.Dx x = x ∧ srcY img img.Dy y = y ∧
    samplePoint img img.Dx img.Dy x y = (img.minX + x, img.minY + y) ∧
    sampleColor img img.Dx img.Dy x y = img.At (img.minX + x) (img.minY + y) := by
  have h1 : srcX img img.Dx x = x := by
    rw [srcX_eq]
    exact srcCoord_identity img.Dx x hW hx0 (by omega)
  have h2 : srcY img img.Dy y = y := by
    rw [srcY_eq]
    exact srcCoord_identity img.Dy y hH hy0 (by omega)
  refine ⟨h1, h2, ?_, ?_⟩
  · unfold samplePoint
    rw [h1, h2]
  · unfold sampleColor samplePoint
    rw [h1, h2]

/-- C4 at the frame `twoPixels` rendered on a 2 by 1 grid: cell `(1, 0)` is the blue pixel. -/
theorem sample_identity_witness : sampleColor twoPixels 2 1 1 0 = ⟨0, 0, 255, 255⟩ :=
  ((sample_identity twoPixels 1 0 (by decide) (by decide) (by decide) (by decide)
    (by decide) (by decide) (by decide) (by decide)).2.2.2).trans (by decide)

/-- C5.  For a frame of width `W ≥ 1` and height `H ≥ 1` and a destination size
`columns` by `rows` (zero included), every point that `render` hands to `img.At` is
`(minX + srcX, minY + srcY)` with `0 ≤ srcX ≤ W - 1` and `0 ≤ srcY ≤ H - 1`, and so lies
inside the bounds of the frame; no clamp is involved.  The sizes are taken in the range
where an index is a `float64` exactly, frame sides up to `2^53` and `columns`, `rows` up
to `2^51`; it holds every grid whose buffer (16 bytes a cell at least) fits in memory. -/
theorem reads_inBounds (img : Image) (columns rows elapsed : Int)
    (hW : 1 ≤ img.Dx) (hH : 1 ≤ img.Dy) (hW53 : img.Dx ≤ 2 ^ 53) (hH53 : img.Dy ≤ 2 ^ 53)
    (hc : columns ≤ 2 ^ 51) (hr : rows ≤ 2 ^ 51) :
    ∀ p ∈ (renderAt img columns rows elapsed).reads,
      ∃ sx sy : Int, p = (img.minX + sx, img.minY + sy) ∧
        0 ≤ sx ∧ sx ≤ img.Dx - 1 ∧ 0 ≤ sy ∧ sy ≤ img.Dy - 1 ∧ img.inBounds p.1 p.2 := by
  intro p hp
  rw [mem_reads] at hp
  obtain ⟨x, y, hx, hy, rfl⟩ := hp
  obtain ⟨a1, a2⟩ := srcCoord_lt img.Dx columns x hW hW53 (by omega) hc (by omega) hx
  obtain ⟨b1, b2⟩ := srcCoord_lt img.Dy rows y hH hH53 (by omega) hr (by omega) hy
  refine ⟨srcX img columns x, srcY img rows y, rfl, ?_, ?_, ?_, ?_, ?_⟩
  · rw [srcX_eq]; exact a1
  · rw [srcX_eq]; exact a2
  · rw [srcY_eq]; exact b1
  · rw [srcY_eq]; exact b2
  · unfold Image.inBounds samplePoint
    simp only [srcX_eq, srcY_eq]
    have hDx : img.Dx = img.maxX - img.minX := rfl
    have hDy : img.Dy = img.maxY - img.minY := rfl
    refine ⟨by omega, by omega, by omega, by omega⟩

/-- C5 at the frame `twoPixels` on a 98 by 1 grid: the point looked up for column 97 is
inside the frame. -/
theorem reads_inBounds_witness :
    ∃ sx sy : Int, samplePoint twoPixels 98 1 97 0 = (twoPixels.minX + sx, twoPixels.minY + sy) ∧
      0 ≤ sx ∧ sx ≤ twoPixels.Dx - 1 ∧ 0 ≤ sy ∧ sy ≤ twoPixels.Dy - 1 ∧
      twoPixels.inBounds (samplePoint twoPixels 98 1 97 0).1 (samplePoint twoPixels 98 1 97 0).2 :=
  reads_inBounds twoPixels 98 1 0 (by decide) (by decide) (by decide) (by decide) (by decide)
    (by decide) _ ((mem_reads twoPixels 98 1 0 _).mpr ⟨97, 0, by decide, by decide, rfl⟩)

/-! ## Counting characters and sequences: lemmas -/

theorem digitChar_ne (d : Nat) (h : d < 10) :
    digitChar d ≠ '\x1b' ∧ digitChar d ≠ '\n' ∧ digitChar d ≠ '█' := by
  unfold digitChar
  interval_cases d <;> decide

theorem mem_decDigits (fuel n : Nat) (c : Char) (h : c ∈ decDigits fuel n) :
    ∃ d, d < 10 ∧ c = digitChar d := by
  induction fuel generalizing n with
  | zero => simp [decDigits] at h
  | succ f ih =>
    unfold decDigits at h
    by_cases hn : n < 10
    · rw [if_pos hn] at h
      exact ⟨n, hn, by simpa using h⟩
    · rw [if_neg hn, List.mem_append] at h
      rcases h with h | h
      · exact ih _ h
      · exact ⟨n % 10, Nat.mod_lt _ (by norm_num), by simpa using h⟩

theorem fmtNat_clean (n : Nat) :
    '\x1b' ∉ (fmtNat n).data ∧ '\n' ∉ (fmtNat n).data ∧ '█' ∉ (fmtNat n).data := by
  refine ⟨?_, ?_, ?_⟩
  · intro h
    obtain ⟨d, hd, hc⟩ := mem_decDigits _ _ _ h
    exact (digitChar_ne d hd).1 hc.symm
  · intro h
    obtain ⟨d, hd, hc⟩ := mem_decDigits _ _ _ h
    exact (digitChar_ne d hd).2.1 hc.symm
  · intro h
    obtain ⟨d, hd, hc⟩ := mem_decDigits _ _ _ h
    exact (digitChar_ne d hd).2.2 hc.symm

theorem passes_nil (pat : List Char) : Passes pat [] 0 := by
  intro rest
  simp

theorem passes_append {pat s t : List Char} {j k : Nat} (hs : Passes pat s j) (ht : Passes pat t k) :
    Passes pat (s ++ t) (j + k) := by
  intro rest
  rw [List.append_assoc, hs, ht, Nat.add_assoc]

theorem passes_flatten {pat : List Char} {k : Nat} (l : List (List Char))
    (h : ∀ s ∈ l, Passes pat s k) : Passes pat l.flatten (l.length * k) := by
  induction l with
  | nil => simpa using passes_nil pat
  | cons a l ih =>
    have h1 := h a (List.mem_cons_self _ _)
    have h2 := ih (fun s hs => h s (List.mem_cons_of_mem _ hs))
    have := passes_append h1 h2
    rw [List.flatten_cons, List.length_cons, Nat.succ_mul, Nat.add_comm]
    exact this

/-- A text without the first character of the pattern holds no occurrence of it. -/
theorem passes_of_not_mem (e : Char) (pat s : List Char) (h : e ∉ s) : Passes (e :: pat) s 0 := by
  intro rest
  induction s with
  | nil => simp
  | cons c s ih =>
    have hc : c ≠ e := fun hce => h (by simp [hce])
    have hs : e ∉ s := fun hes => h (List.mem_cons_of_mem _ hes)
    have hp : (e :: pat).isPrefixOf (c :: (s ++ rest)) = false := by
      simp [List.isPrefixOf, Ne.symm hc]
    rw [List.cons_append, countOcc, hp, ih hs]
    simp

theorem countOcc_eq (pat s : List Char) (k : Nat) (h : Passes pat s k) : countOcc pat s = k := by
  have := h []
  simpa [countOcc] using this

theorem data_join (l : List String) : (String.join l).data = (l.map String.data).flatten := by
  induction l with
  | nil => rfl
  | cons a l ih => rw [join_cons, String.data_append, ih, List.map_cons, List.flatten_cons]

/-- The characters of a cell: the escape character, then a body free of escape
characters and line feeds that holds exactly one block glyph. -/
theorem specCell_data (c : RGBA) :
    ∃ body : List Char, (specCell c).data = '\x1b' :: '[' :: '3' :: '8' :: ';' :: '2' :: ';' :: body ∧
      '\x1b' ∉ body ∧ '\n' ∉ body ∧ body.count '█' = 1 := by
  refine ⟨(fmtNat c.R.val).data ++ ';' :: ((fmtNat c.G.val).data ++ ';' ::
    ((fmtNat c.B.val).data ++ ['m', '█'])), ?_, ?_, ?_, ?_⟩
  · simp only [specCell, String.data_append, List.append_assoc]
    rfl
  · have h1 := (fmtNat_clean c.R.val).1
    have h2 := (fmtNat_clean c.G.val).1
    have h3 := (fmtNat_clean c.B.val).1
    simp only [List.mem_append, List.mem_cons, List.mem_singleton, not_or]
    refine ⟨h1, by decide, h2, by decide, h3, by decide, by decide, ?_⟩
    simp
  · have h1 := (fmtNat_clean c.R.val).2.1
    have h2 := (fmtNat_clean c.G.val).2.1
    have h3 := (fmtNat_clean c.B.val).2.1
    simp only [List.mem_append, List.mem_cons, List.mem_singleton, not_or]
    refine ⟨h1, by decide, h2, by decide, h3, by decide, by decide, ?_⟩
    simp
  · have h1 := List.count_eq_zero.mpr (fmtNat_clean c.R.val).2.2
    have h2 := List.count_eq_zero.mpr (fmtNat_clean c.G.val).2.2
    have h3 := List.count_eq_zero.mpr (fmtNat_clean c.B.val).2.2
    simp only [List.count_append, List.count_cons, h1, h2, h3]
    decide

/-- A text that starts with the first character of the pattern and has no other copy
of it holds one occurrence or none, as its own beginning decides. -/
theorem passes_esc_cons (e : Char) (pat body : List Char) (b : Bool) (hbody : e ∉ body)
    (hpre : ∀ rest : List Char, (e :: pat).isPrefixOf (e :: (body ++ rest)) = b) :
    Passes (e :: pat) (e :: body) (if b then 1 else 0) := by
  intro rest
  rw [List.cons_append, countOcc, hpre rest, passes_of_not_mem e pat body hbody rest]
  simp

theorem passes_reset_cell (c : RGBA) :
    Passes ("\x1b[0m" : String).data (specCell c).data 0 ∧
    Passes ("\x1b[0m\n" : String).data (specCell c).data 0 := by
  obtain ⟨body, hdata, hesc, _, _⟩ := specCell_data c
  rw [hdata]
  have hb : '\x1b' ∉ '[' :: '3' :: '8' :: ';' :: '2' :: ';' :: body := by
    simp only [List.mem_cons, not_or]
    exact ⟨by decide, by decide, by decide, by decide, by decide, by decide, hesc⟩
  constructor
  · exact passes_esc_cons '\x1b' ['[', '0', 'm'] _ false hb (fun rest => by simp [List.isPrefixOf])
  · exact passes_esc_cons '\x1b' ['[', '0', 'm', '\n'] _ false hb
      (fun rest => by simp [List.isPrefixOf])

theorem passes_reset_lf :
    Passes ("\x1b[0m" : String).data ("\x1b[0m\n" : String).data 1 ∧
    Passes ("\x1b[0m\n" : String).data ("\x1b[0m\n" : String).data 1 := by
  have hb : '\x1b' ∉ ['[', '0', 'm', '\n'] := by decide
  constructor
  · exact passes_esc_cons '\x1b' ['[', '0', 'm'] _ true hb (fun rest => by simp [List.isPrefixOf])
  · exact passes_esc_cons '\x1b' ['[', '0', 'm', '\n'] _ true hb
      (fun rest => by simp [List.isPrefixOf])

/-- The cells of a row hold no style reset, whatever follows them. -/
theorem passes_cells (img : Image) (columns rows : Int) (y : Nat) (l : List Nat) :
    Passes ("\x1b[0m" : String).data (String.join (l.map
      (fun (x : Nat) => specCell (sampleColor img columns rows (x : Int) (y : Int))))).data 0 ∧
    Passes ("\x1b[0m\n" : String).data (String.join (l.map
      (fun (x : Nat) => specCell (sampleColor img columns rows (x : Int) (y : Int))))).data 0 := by
  rw [data_join, List.map_map]
  constructor
  · have := @passes_flatten ("\x1b[0m" : String).data 0
      (l.map (String.data ∘ fun (x : Nat) => specCell (sampleColor img columns rows (x : Int) (y : Int))))
      (by
        intro s hs
        rw [List.mem_map] at hs
        obtain ⟨x, _, rfl⟩ := hs
        exact (passes_reset_cell _).1)
    simpa using this
  · have := @passes_flatten ("\x1b[0m\n" : String).data 0
      (l.map (String.data ∘ fun (x : Nat) => specCell (sampleColor img columns rows (x : Int) (y : Int))))
      (by
        intro s hs
        rw [List.mem_map] at hs
        obtain ⟨x, _, rfl⟩ := hs
        exact (passes_reset_cell _).2)
    simpa using this

theorem specRow_split (img : Image) (columns rows : Int) (y : Nat) :
    specRow img columns rows y = String.join ((List.range columns.toNat).map
      (fun (x : Nat) => specCell (sampleColor img columns rows (x : Int) (y : Int)))) ++ "\x1b[0m\n" := by
  unfold specRow
  rw [String.append_assoc]
  rfl

/-- A row holds exactly one style reset, the one right before its line feed. -/
theorem passes_row (img : Image) (columns rows : Int) (y : Nat) :
    Passes ("\x1b[0m" : String).data (specRow img columns rows y).data 1 ∧
    Passes ("\x1b[0m\n" : String).data (specRow img columns rows y).data 1 := by
  rw [specRow_split, String.data_append]
  constructor
  · simpa using passes_append (passes_cells img columns rows y _).1 passes_reset_lf.1
  · simpa using passes_append (passes_cells img columns rows y _).2 passes_reset_lf.2

theorem countSeq_grid (img : Image) (columns rows : Int) :
    countSeq "\x1b[0m" (specGrid img columns rows) = rows.toNat ∧
    countSeq "\x1b[0m\n" (specGrid img columns rows) = rows.toNat := by
  unfold countSeq specGrid
  rw [data_join, List.map_map]
  constructor
  · have := @passes_flatten ("\x1b[0m" : String).data 1
      ((List.range rows.toNat).map (String.data ∘ specRow img columns rows))
      (by
        intro s hs
        rw [List.mem_map] at hs
        obtain ⟨y, _, rfl⟩ := hs
        exact (passes_row img columns rows y).1)
    simpa using countOcc_eq _ _ _ this
  · have := @passes_flatten ("\x1b[0m\n" : String).data 1
      ((List.range rows.toNat).map (String.data ∘ specRow img columns rows))
      (by
        intro s hs
        rw [List.mem_map] at hs
        obtain ⟨y, _, rfl⟩ := hs
        exact (passes_row img columns rows y).2)
    simpa using countOcc_eq _ _ _ this

theorem sum_map_const {α : Type} (l : List α) (f : α → Nat) (k : Nat) (h : ∀ a ∈ l, f a = k) :
    (l.map f).sum = l.length * k := by
  induction l with
  | nil => simp
  | cons a l ih =>
    rw [List.map_cons, List.sum_cons, h a (List.mem_cons_self _ _),
      ih (fun b hb => h b (List.mem_cons_of_mem _ hb)), List.length_cons, Nat.succ_mul, Nat.add_comm]

theorem countChar_append (c : Char) (s t : String) :
    countChar c (s ++ t) = countChar c s + countChar c t := by
  unfold countChar
  rw [String.data_append, List.count_append]

theorem countChar_join (c : Char) (l : List String) (k : Nat) (h : ∀ s ∈ l, countChar c s = k) :
    countChar c (String.join l) = l.length * k := by
  induction l with
  | nil => simp [String.join, countChar]
  | cons a l ih =>
    rw [join_cons, countChar_append, h a (List.mem_cons_self _ _),
      ih (fun b hb => h b (List.mem_cons_of_mem _ hb)), List.length_cons, Nat.succ_mul, Nat.add_comm]

theorem countChar_specCell (c : RGBA) :
    countChar '█' (specCell c) = 1 ∧ countChar '\n' (specCell c) = 0 := by
  obtain ⟨body, hdata, _, hlf, hblock⟩ := specCell_data c
  unfold countChar
  rw [hdata]
  constructor
  · simp only [List.count_cons, hblock]
    decide
  · have := List.count_eq_zero.mpr hlf
    simp only [List.count_cons, this]
    decide

theorem countChar_specRow (img : Image) (columns rows : Int) (y : Nat) :
    countChar '█' (specRow img columns rows y) = columns.toNat ∧
    countChar '\n' (specRow img columns rows y) = 1 := by
  rw [specRow_split, countChar_append, countChar_append]
  constructor
  · rw [countChar_join '█' _ 1]
    · simp
      decide
    · intro s hs
      rw [List.mem_map] at hs
      obtain ⟨x, _, rfl⟩ := hs
      exact (countChar_specCell _).1
  · rw [countChar_join '\n' _ 0]
    · simp
      decide
    · intro s hs
      rw [List.mem_map] at hs
      obtain ⟨x, _, rfl⟩ := hs
      exact (countChar_specCell _).2

theorem countChar_specGrid (img : Image) (columns rows : Int) :
    countChar '█' (specGrid img columns rows) = columns.toNat * rows.toNat ∧
    countChar '\n' (specGrid img columns rows) = rows.toNat := by
  unfold specGrid
  constructor
  · rw [countChar_join '█' _ columns.toNat]
    · simp [Nat.mul_comm]
    · intro s hs
      rw [List.mem_map] at hs
      obtain ⟨y, _, rfl⟩ := hs
      exact (countChar_specRow img columns rows y).1
  · rw [countChar_join '\n' _ 1]
    · simp
    · intro s hs
      rw [List.mem_map] at hs
      obtain ⟨y, _, rfl⟩ := hs
      exact (countChar_specRow img columns rows y).2

theorem zeroPad_clean (width : Nat) (s : String) (h : '█' ∉ s.data) : '█' ∉ (zeroPad width s).data := by
  unfold zeroPad
  rw [String.data_append, List.mem_append, not_or]
  refine ⟨?_, h⟩
  intro hmem
  have := List.eq_of_mem_replicate hmem
  exact absurd this (by decide)

theorem fmtInt_clean (n : Int) : '█' ∉ (fmtInt n).data := by
  unfold fmtInt
  split_ifs
  · rw [String.data_append, List.mem_append, not_or]
    exact ⟨by decide, (fmtNat_clean _).2.2⟩
  · exact (fmtNat_clean _).2.2

theorem fmtInt02_clean (n : Int) : '█' ∉ (fmtInt02 n).data := by
  unfold fmtInt02
  split_ifs
  · rw [String.data_append, List.mem_append, not_or]
    exact ⟨by decide, zeroPad_clean _ _ (fmtNat_clean _).2.2⟩
  · exact zeroPad_clean _ _ (fmtNat_clean _).2.2

theorem formatDuration_clean (d : Int) : '█' ∉ (formatDuration d).data := by
  unfold formatDuration
  simp only [String.data_append, List.mem_append, not_or]
  exact ⟨⟨⟨⟨⟨by decide, fmtInt02_clean _⟩, by decide⟩, fmtInt02_clean _⟩, by decide⟩, fmtInt02_clean _⟩

theorem countChar_specOverlay (rows startCol elapsed : Int) :
    countChar '█' (specOverlay rows startCol (formatDuration elapsed)) = 0 := by
  unfold countChar
  rw [List.count_eq_zero]
  unfold specOverlay
  simp only [String.data_append, List.mem_append, not_or]
  exact ⟨⟨⟨⟨⟨⟨⟨by decide, fmtInt_clean _⟩, by decide⟩, fmtInt_clean _⟩, by decide⟩, by decide⟩,
    formatDuration_clean _⟩, by decide⟩

/-- The composed buffer holds one block glyph for each cell of the grid and no other. -/
theorem countChar_specBuffer (img : Image) (columns rows elapsed : Int) :
    countChar '█' (specBuffer img columns rows elapsed) = columns.toNat * rows.toNat := by
  unfold specBuffer
  rw [countChar_append, countChar_append, countChar_specOverlay, (countChar_specGrid _ _ _).1]
  have : countChar '█' "\x1b[H" = 0 := by decide
  rw [this]
  omega

/-! ## The pixel-grid section (C7) -/

/-- C7.  The composed buffer is the cursor-home sequence, the pixel-grid section and
the overlay; the pixel-grid section holds exactly `rows` line feeds, exactly `rows` style
resets `ESC[0m`, each immediately followed by a line feed (`rows` occurrences of
`ESC[0m` + line feed), and exactly `columns * rows` block glyphs; each row holds
`columns` glyphs, one style reset and one line feed, which ends it; a 2 by 1 grid holds
2 glyphs on one row. -/
theorem grid_counts (img : Image) (columns rows elapsed : Int) :
    (renderAt img columns rows elapsed).buf =
      "\x1b[H" ++ specGrid img columns rows ++
        specOverlay rows (textCol columns (formatDuration elapsed)) (formatDuration elapsed) ∧
    countChar '\n' (specGrid img columns rows) = rows.toNat ∧
    countSeq "\x1b[0m" (specGrid img columns rows) = rows.toNat ∧
    countSeq "\x1b[0m\n" (specGrid img columns rows) = rows.toNat ∧
    countChar '█' (specGrid img columns rows) = columns.toNat * rows.toNat ∧
    specGrid img columns rows = String.join ((List.range rows.toNat).map (specRow img columns rows)) ∧
    (∀ y : Nat, countChar '█' (specRow img columns rows y) = columns.toNat ∧
      countChar '\n' (specRow img columns rows y) = 1 ∧
      countSeq "\x1b[0m" (specRow img columns rows y) = 1 ∧
      ∃ cells : String, specRow img columns rows y = cells ++ "\x1b[0m\n" ∧
        countChar '\n' cells = 0 ∧ countChar '█' cells = columns.toNat) ∧
    (countChar '█' (specGrid img 2 1) = 2 ∧ countChar '\n' (specGrid img 2 1) = 1) := by
  refine ⟨?_, (countChar_specGrid img columns rows).2, (countSeq_grid img columns rows).1,
    (countSeq_grid img columns rows).2, (countChar_specGrid img columns rows).1, rfl, ?_, ?_⟩
  · rw [renderAt_eq]
    rfl
  · intro y
    refine ⟨(countChar_specRow img columns rows y).1, (countChar_specRow img columns rows y).2,
      countOcc_eq _ _ _ (passes_row img columns rows y).1, _, specRow_split img columns rows y, ?_, ?_⟩
    · rw [countChar_join '\n' _ 0]
      · simp
      · intro s hs
        rw [List.mem_map] at hs
        obtain ⟨x, _, rfl⟩ := hs
        exact (countChar_specCell _).2
    · rw [countChar_join '█' _ 1]
      · simp
      · intro s hs
        rw [List.mem_map] at hs
        obtain ⟨x, _, rfl⟩ := hs
        exact (countChar_specCell _).1
  · exact ⟨(countChar_specGrid img 2 1).1, (countChar_specGrid img 2 1).2⟩

/-! ## Zero-sized geometry (C10) -/

theorem round_isFinite (neg : Bool) (a b : Nat) : (F64.round neg a b).isFinite = true := by
  unfold F64.round
  split_ifs <;> rfl

/-- Conversion of an integer gives a finite value, with a non-zero significand unless
the integer is zero. -/
theorem ofInt_finite (n : Int) :
    ∃ (s : Bool) (m : Nat) (e : Int), F64.ofInt n = F64.finite s m e ∧ (n ≠ 0 → m ≠ 0) := by
  by_cases hn : n = 0
  · refine ⟨false, 0, 0, ?_, fun h => absurd hn h⟩
    rw [hn]
    rfl
  · obtain ⟨m, e, h, hnear, hlo, _⟩ := round_spec (decide (n < 0)) n.natAbs 1 (by omega) (by norm_num)
    refine ⟨decide (n < 0), m, e, h, fun _ hm0 => ?_⟩
    rw [hm0] at hnear
    have hE : (0 : ℚ) < (2 : ℚ) ^ e := zpow_pos (by norm_num) _
    simp only [Nat.cast_zero, zero_mul, zero_sub, abs_neg] at hnear
    rw [abs_of_nonneg (by positivity)] at hnear
    nlinarith

/-- A quotient of converted integers is finite exactly when the divisor is not zero. -/
theorem div_ofInt_isFinite (a b : Int) :
    (F64.div (F64.ofInt a) (F64.ofInt b)).isFinite = decide (b ≠ 0) := by
  obtain ⟨s1, m1, e1, h1, _⟩ := ofInt_finite a
  obtain ⟨s2, m2, e2, h2, hm2⟩ := ofInt_finite b
  by_cases hb : b = 0
  · have hz : F64.ofInt b = F64.finite false 0 0 := by rw [hb]; rfl
    rw [h1, hz, hb]
    simp only [F64.div, if_true]
    split_ifs <;> rfl
  · rw [h1, h2]
    simp only [F64.div]
    rw [if_neg (hm2 hb), round_isFinite]
    simp [hb]

theorem reads_length (img : Image) (columns rows elapsed : Int) :
    (renderAt img columns rows elapsed).reads.length = columns.toNat * rows.toNat := by
  rw [renderAt_eq]
  simp only [List.length_flatten, List.map_map]
  rw [sum_map_const _ _ columns.toNat]
  · simp [Nat.mul_comm]
  · intro y _
    simp

theorem specGrid_zero (img : Image) (columns rows : Int) (h : columns = 0 ∨ rows = 0) :
    specGrid img columns rows = String.join (List.replicate rows.toNat "\x1b[0m\n") := by
  rcases h with h | h
  · unfold specGrid
    congr 1
    rw [List.eq_replicate_iff]
    refine ⟨by simp, ?_⟩
    intro s hs
    rw [List.mem_map] at hs
    obtain ⟨y, _, rfl⟩ := hs
    rw [specRow_split, h]
    rfl
  · rw [h]
    rfl

theorem countSeq_colour_zero (n : Nat) :
    countSeq "\x1b[38;2;" (String.join (List.replicate n "\x1b[0m\n")) = 0 := by
  unfold countSeq
  rw [data_join]
  have hb : '\x1b' ∉ ['[', '0', 'm', '\n'] := by decide
  have hp : Passes ("\x1b[38;2;" : String).data ("\x1b[0m\n" : String).data 0 :=
    passes_esc_cons '\x1b' ['[', '3', '8', ';', '2', ';'] _ false hb
      (fun rest => by simp [List.isPrefixOf])
  have := @passes_flatten ("\x1b[38;2;" : String).data 0
    ((List.replicate n "\x1b[0m\n").map String.data)
    (by
      intro s hs
      rw [List.mem_map] at hs
      obtain ⟨t, ht, rfl⟩ := hs
      rw [List.eq_of_mem_replicate ht]
      exact hp)
  simpa using countOcc_eq _ _ _ this

/-- C10, amended.  A geometry with a zero dimension never reaches the resampling loops:
when the terminal reports 0 columns or 0 rows `render` works with 80 by 24, so the grid is
not empty (1920 glyphs, 1920 pixels read); after that guard neither divisor is zero and
both scale factors are finite.  The loops themselves are total: run with `columns = 0` or
`rows = 0` they read no source pixel and emit no block glyph and no foreground-colour
sequence (the grid is `rows` bare style resets with their line feeds), while the scale
factor of a zero dimension is a float division by zero (not finite, and no failure). -/
theorem zero_geometry (img : Image) (q : TermSize) (columns rows elapsed : Int) :
    (q.width = 0 ∨ q.height = 0 →
      render img q elapsed = specBuffer img 80 24 elapsed ∧
      countChar '█' (render img q elapsed) = 1920 ∧
      (renderAt img (termSize q).1 (termSize q).2 elapsed).reads.length = 1920) ∧
    ((termSize q).1 ≠ 0 ∧ (termSize q).2 ≠ 0 ∧
      (scaleX img (termSize q).1).isFinite = true ∧ (scaleY img (termSize q).2).isFinite = true) ∧
    (columns = 0 ∨ rows = 0 →
      (renderAt img columns rows elapsed).reads = [] ∧
      countChar '█' (renderAt img columns rows elapsed).buf = 0 ∧
      specGrid img columns rows = String.join (List.replicate rows.toNat "\x1b[0m\n") ∧
      countSeq "\x1b[38;2;" (specGrid img columns rows) = 0) ∧
    ((scaleX img 0).isFinite = false ∧ (scaleY img 0).isFinite = false) := by
  have hne : (termSize q).1 ≠ 0 ∧ (termSize q).2 ≠ 0 := by
    unfold termSize
    split_ifs with h
    · exact ⟨by decide, by decide⟩
    · simp only [Bool.or_eq_true, beq_iff_eq, not_or] at h
      exact ⟨h.1.2, h.2⟩
  refine ⟨?_, ⟨hne.1, hne.2, ?_, ?_⟩, ?_, ?_, ?_⟩
  · intro h
    have ht : termSize q = (80, 24) := by
      unfold termSize
      rw [if_pos]
      rcases h with h | h <;> simp [h]
    unfold render
    rw [ht, reads_length, renderAt_eq, countChar_specBuffer]
    exact ⟨rfl, by decide, by decide⟩
  · unfold scaleX
    rw [div_ofInt_isFinite]
    exact decide_eq_true hne.1
  · unfold scaleY
    rw [div_ofInt_isFinite]
    exact decide_eq_true hne.2
  · intro h
    have hz : columns.toNat * rows.toNat = 0 := by
      rcases h with h | h <;> simp [h]
    refine ⟨?_, ?_, specGrid_zero img columns rows h, ?_⟩
    · rw [← List.length_eq_zero, reads_length, hz]
    · rw [renderAt_eq, countChar_specBuffer, hz]
    · rw [specGrid_zero img columns rows h, countSeq_colour_zero]
  · unfold scaleX
    rw [div_ofInt_isFinite]
    decide
  · unfold scaleY
    rw [div_ofInt_isFinite]
    decide

/-- C10 at a terminal that reports 0 columns and 24 rows, and at the loops run with 0
columns and 24 rows. -/
theorem zero_geometry_witness :
    countChar '█' (render twoPixels ⟨0, 24, false⟩ 0) = 1920 ∧
    (renderAt twoPixels 0 24 0).reads = [] :=
  ⟨((zero_geometry twoPixels ⟨0, 24, false⟩ 0 24 0).1 (Or.inl rfl)).2.1,
    ((zero_geometry twoPixels ⟨0, 24, false⟩ 0 24 0).2.2.1 (Or.inl rfl)).1⟩

/-- C10 as stated fails when the terminal reports 0 columns: `render` falls back to 80
by 24, reads 1920 pixels and emits 1920 block glyphs; and the loops taken on their own
with 0 columns do divide by zero, the scale factor being `2 / 0 = +Inf`. -/
theorem zero_columns_not_empty :
    termSize ⟨0, 24, false⟩ = (80, 24) ∧
    countChar '█' (render twoPixels ⟨0, 24, false⟩ 0) ≠ 0 ∧
    (renderAt twoPixels (termSize ⟨0, 24, false⟩).1 (termSize ⟨0, 24, false⟩).2 0).reads ≠ [] ∧
    scaleX twoPixels 0 = F64.inf false := by
  have ht : termSize ⟨0, 24, false⟩ = (80, 24) := by decide
  refine ⟨ht, ?_, ?_, by decide⟩
  · unfold render
    rw [ht, renderAt_eq, countChar_specBuffer]
    decide
  · intro h
    have := reads_length twoPixels (termSize ⟨0, 24, false⟩).1 (termSize ⟨0, 24, false⟩).2 0
    rw [h, ht] at this
    revert this
    decide

/-! ## The driver loop (C9) -/

theorem sleepTime_eq (d : Int) (h0 : -922337203685 ≤ d) (h1 : d ≤ 922337203685) :
    sleepTime d = d * 10 * Millisecond := by
  unfold sleepTime Millisecond
  have e1 : wrap64 d = d := wrap64_eq_self (by omega) (by omega)
  have e2 : wrap64 (d * 10) = d * 10 := wrap64_eq_self (by omega) (by omega)
  have e3 : wrap64 (d * 10 * 1000000) = d * 10 * 1000000 := wrap64_eq_self (by omega) (by omega)
  rw [e1, e2, e3]

theorem played_start (env : Env) (frames : List Image) (delays : List Int) :
    Played env frames delays 0 { stdout := [clearScreen], ticks := [] } := by
  refine ⟨rfl, rfl, rfl, ?_⟩
  intro k hk
  omega

/-- One more iteration of the frame loop extends the history by one tick. -/
theorem played_step (env : Env) (frames : List Image) (delays : List Int) (m i : Nat) (run : Run)
    (img : Image) (d : Int) (hi : i < frames.length) (himg : frames[i]? = some img)
    (hd : delays[i]? = some d) (h : Played env frames delays (m * frames.length + i) run) :
    Played env frames delays (m * frames.length + (i + 1))
      { stdout := run.stdout ++ [render img (env.size run.ticks.length) (env.elapsed run.ticks.length)],
        ticks := run.ticks ++ [{ frame := i, sleep := sleepTime d }] } := by
  obtain ⟨h1, h2, h3, h4⟩ := h
  have hmod : (m * frames.length + i) % frames.length = i := by
    rw [Nat.mul_comm, Nat.mul_add_mod, Nat.mod_eq_of_lt hi]
  refine ⟨?_, ?_, ?_, ?_⟩
  · simp only [List.length_append, List.length_singleton, h1]
    omega
  · simp only [List.length_append, List.length_singleton, h2]
    omega
  · simp only []
    rw [List.getElem?_append_left (by omega)]
    exact h3
  · intro k hk
    simp only []
    by_cases hkt : k < m * frames.length + i
    · obtain ⟨a, b⟩ := h4 k hkt
      rw [List.getElem?_append_left (by omega), List.getElem?_append_left (by omega)]
      exact ⟨a, b⟩
    · have hkeq : k = m * frames.length + i := by omega
      have e1 : (run.ticks ++ [({ frame := i, sleep := sleepTime d } : Tick)])[k]? =
          some { frame := i, sleep := sleepTime d } := by
        rw [hkeq, ← h1]
        exact List.getElem?_concat_length _ _
      have e2 : (run.stdout ++
          [render img (env.size run.ticks.length) (env.elapsed run.ticks.length)])[k + 1]? =
          some (render img (env.size run.ticks.length) (env.elapsed run.ticks.length)) := by
        have : k + 1 = run.stdout.length := by omega
        rw [this]
        exact List.getElem?_concat_length _ _
      rw [e1, e2, hkeq, hmod, himg, h1]
      refine ⟨?_, rfl⟩
      simp [List.getD, hd]

/-- The frame loop, started at index `pre.length` with `rest` still to come, completes
the pass. -/
theorem rangeFrames_played (env : Env) (frames : List Image) (delays : List Int) (m : Nat)
    (hlen : frames.length ≤ delays.length) (rest pre : List Image) (run : Run)
    (hsplit : frames = pre ++ rest)
    (h : Played env frames delays (m * frames.length + pre.length) run) :
    ∃ run', rangeFrames env delays pre.length rest run = some run' ∧
      Played env frames delays (m * frames.length + frames.length) run' := by
  induction rest generalizing pre run with
  | nil =>
    refine ⟨run, rfl, ?_⟩
    have : frames.length = pre.length := by rw [hsplit]; simp
    rw [this] at h ⊢
    exact h
  | cons img rest ih =>
    have hi : pre.length < frames.length := by rw [hsplit]; simp
    have himg : frames[pre.length]? = some img := by
      rw [hsplit, List.getElem?_append_right (le_refl _)]
      simp
    obtain ⟨d, hd⟩ : ∃ d, delays[pre.length]? = some d :=
      ⟨_, List.getElem?_eq_getElem (by omega)⟩
    have hstep := played_step env frames delays m pre.length run img d hi himg hd h
    have hsplit' : frames = (pre ++ [img]) ++ rest := by rw [hsplit]; simp
    have hlen' : (pre ++ [img]).length = pre.length + 1 := by simp
    rw [← hlen'] at hstep
    obtain ⟨run', hr, hp⟩ := ih (pre ++ [img]) _ hsplit' hstep
    refine ⟨run', ?_, hp⟩
    rw [rangeFrames, hd]
    simp only []
    rw [← hlen']
    exact hr

/-- The outer loop: `passes` more passes extend a history of `m` passes to `m + passes`. -/
theorem forever_played (env : Env) (frames : List Image) (delays : List Int)
    (hlen : frames.length ≤ delays.length) (passes m : Nat) (run : Run)
    (h : Played env frames delays (m * frames.length) run) :
    ∃ run', forever env frames delays passes run = some run' ∧
      Played env frames delays ((m + passes) * frames.length) run' := by
  induction passes generalizing m run with
  | zero => exact ⟨run, rfl, h⟩
  | succ p ih =>
    obtain ⟨run1, hr1, hp1⟩ := rangeFrames_played env frames delays m hlen frames [] run rfl
      (by simpa using h)
    have hp1' : Played env frames delays ((m + 1) * frames.length) run1 := by
      rw [Nat.add_mul, Nat.one_mul]
      exact hp1
    obtain ⟨run', hr, hp⟩ := ih (m + 1) run1 hp1'
    refine ⟨run', ?_, ?_⟩
    · rw [forever]
      simp only [List.length_nil] at hr1
      rw [hr1]
      exact hr
    · have : m + (p + 1) = m + 1 + p := by omega
      rw [this]
      exact hp

/-- C9.  For `n ≥ 1` frames with delays `delay[0 .. n-1]` in hundredths of a second (each
at most 922337203685 in magnitude, so that the sleep time fits a `Duration`), once the
outer loop has made enough passes the tick number `k` has rendered frame `k mod n` (with
the size and the elapsed time of that moment) and slept for exactly `delay[k mod n] * 10`
milliseconds; a delay of 0 gives a sleep of 0. -/
theorem driver_cycles (env : Env) (frames : List Image) (delays : List Int)
    (hn : 1 ≤ frames.length) (hlen : delays.length = frames.length)
    (hd : ∀ d ∈ delays, -922337203685 ≤ d ∧ d ≤ 922337203685) (passes k : Nat)
    (hk : k < passes * frames.length) :
    ∃ (run : Run) (d : Int) (img : Image),
      main env frames delays passes = some run ∧
      run.ticks.length = passes * frames.length ∧
      delays[k % frames.length]? = some d ∧ frames[k % frames.length]? = some img ∧
      run.ticks[k]? = some { frame := k % frames.length, sleep := d * 10 * Millisecond } ∧
      run.stdout[k + 1]? = some (render img (env.size k) (env.elapsed k)) ∧
      sleepTime 0 = 0 := by
  obtain ⟨run, hr, hp⟩ := forever_played env frames delays (by omega) passes 0 _
    (by simpa using played_start env frames delays)
  rw [Nat.zero_add] at hp
  obtain ⟨h1, _, _, h4⟩ := hp
  obtain ⟨a, b⟩ := h4 k hk
  have hmod : k % frames.length < frames.length := Nat.mod_lt _ (by omega)
  obtain ⟨d, hdk⟩ : ∃ d, delays[k % frames.length]? = some d :=
    ⟨_, List.getElem?_eq_getElem (by omega)⟩
  obtain ⟨img, himg⟩ : ∃ img, frames[k % frames.length]? = some img :=
    ⟨_, List.getElem?_eq_getElem hmod⟩
  refine ⟨run, d, img, hr, h1, hdk, himg, ?_, ?_, by decide⟩
  · rw [a]
    have hmem := hd d (List.getElem?_mem hdk)
    rw [← sleepTime_eq _ hmem.1 hmem.2]
    simp [List.getD, hdk]
  · rw [b, himg]
    rfl

/-- C9 for two frames with delays 0 and 5 hundredths: the tick number 3 renders frame 1
and sleeps 50 milliseconds. -/
theorem driver_cycles_witness :
    ∃ (run : Run) (d : Int) (img : Image),
      main ⟨fun _ => ⟨2, 1, false⟩, fun _ => 0⟩ [twoPixels, twoPixels] [0, 5] 2 = some run ∧
      run.ticks.length = 2 * [twoPixels, twoPixels].length ∧
      [(0 : Int), 5][3 % [twoPixels, twoPixels].length]? = some d ∧
      [twoPixels, twoPixels][3 % [twoPixels, twoPixels].length]? = some img ∧
      run.ticks[3]? = some { frame := 3 % [twoPixels, twoPixels].length, sleep := d * 10 * Millisecond } ∧
      run.stdout[3 + 1]? = some (render img ⟨2, 1, false⟩ 0) ∧
      sleepTime 0 = 0 :=
  driver_cycles ⟨fun _ => ⟨2, 1, false⟩, fun _ => 0⟩ [twoPixels, twoPixels] [0, 5] (by decide)
    (by decide) (by decide) 2 3 (by decide)

/-! ## The channels of a colour sequence (C12) -/

theorem expand16_eq_mul (c : Fin 256) : expand16 c = c.val * 257 := by
  revert c
  unfold expand16
  decide

/-- C12.  For every 8-bit channel value `c`, the 16-bit expansion that `RGBA()` returns
is `c * 257`, and the emitted value `(c * 257) >> 8` is `c` again, a number in `0 .. 255`;
so the colour sequence of a cell carries the stored `R`, `G` and `B` of the pixel. -/
theorem channel_exact (c : Fin 256) (px : RGBA) :
    expand16 c = c.val * 257 ∧ (c.val * 257) >>> 8 = c.val ∧ c.val ≤ 255 ∧
    px.RGBA = (px.R.val * 257, px.G.val * 257, px.B.val * 257, px.A.val * 257) ∧
    (px.RGBA.1 >>> 8 = px.R.val ∧ px.RGBA.2.1 >>> 8 = px.G.val ∧ px.RGBA.2.2.1 >>> 8 = px.B.val) ∧
    cellText px =
      "\x1b[38;2;" ++ fmtNat px.R.val ++ ";" ++ fmtNat px.G.val ++ ";" ++ fmtNat px.B.val ++ "m" ++ "█" := by
  refine ⟨expand16_eq_mul c, ?_, by omega, ?_, ?_, ?_⟩
  · rw [← expand16_eq_mul]
    exact expand16_shiftRight c
  · simp only [RGBA.RGBA, expand16_eq_mul]
  · simp only [RGBA.RGBA, expand16_shiftRight, and_self]
  · rw [cellText_eq_specCell]
    rfl

/-! ## The overlay inside the last row (C15) -/

/-- C15.  Whenever `columns ≥ L`, with `L` the length of the overlay text, the 1-based
start column `s = max(1, (columns - L) / 2)` of the overlay satisfies `1 ≤ s` and
`s + L - 1 ≤ columns`: the text lies entirely inside the row. -/
theorem overlay_fits (columns : Int) (text : String) (h : (text.utf8ByteSize : Int) ≤ columns) :
    textCol columns text = max 1 ((columns - (text.utf8ByteSize : Int)) / 2) ∧
    1 ≤ textCol columns text ∧
    textCol columns text + (text.utf8ByteSize : Int) - 1 ≤ columns := by
  have e := textCol_eq_max columns text
  refine ⟨e, ?_, ?_⟩
  · rw [e]
    exact le_max_left _ _
  · rw [e]
    rcases max_cases 1 ((columns - (text.utf8ByteSize : Int)) / 2) with ⟨h1, _⟩ | ⟨h1, _⟩
    · rw [h1]
      omega
    · rw [h1]
      omega

/-- C15 at 80 columns and at exactly 16 columns, for the 16 bytes of the overlay text of
a fresh start: the text occupies the columns 32 to 47, and 1 to 16. -/
theorem overlay_fits_witness :
    textCol 80 (formatDuration 0) = 32 ∧ textCol 80 (formatDuration 0) + 16 - 1 ≤ 80 ∧
    textCol 16 (formatDuration 0) = 1 ∧ textCol 16 (formatDuration 0) + 16 - 1 ≤ 16 :=
  ⟨(overlay_fits 80 (formatDuration 0) (by decide)).1.trans (by decide),
    (overlay_fits 80 (formatDuration 0) (by decide)).2.2,
    (overlay_fits 16 (formatDuration 0) (by decide)).1.trans (by decide),
    (overlay_fits 16 (formatDuration 0) (by decide)).2.2⟩

/-! ## The writes to standard output (C11) -/

theorem specBuffer_ne_clearScreen (img : Image) (columns rows elapsed : Int) :
    specBuffer img columns rows elapsed ≠ clearScreen := by
  intro h
  have hd := congrArg String.data h
  unfold specBuffer at hd
  rw [String.data_append, String.data_append] at hd
  have e1 : ("\x1b[H" : String).data = ['\x1b', '[', 'H'] := rfl
  have e2 : clearScreen.data = ['\x1b', '[', '2', 'J'] := rfl
  rw [e1, e2] at hd
  simp at hd

theorem count_head_only {α : Type} [DecidableEq α] (l : List α) (c : α) (t : Nat)
    (h0 : l[0]? = some c) (hrest : ∀ k, k < t → ∃ a, l[k + 1]? = some a ∧ a ≠ c)
    (hlen : l.length = t + 1) : l.count c = 1 := by
  cases l with
  | nil => simp at hlen
  | cons a tl =>
    have ha : a = c := by simpa using h0
    have htl : c ∉ tl := by
      intro hmem
      obtain ⟨i, hi, hget⟩ := List.getElem_of_mem hmem
      have hi' : i < t := by
        simp only [List.length_cons] at hlen
        omega
      obtain ⟨b, hb, hne⟩ := hrest i hi'
      rw [List.getElem?_cons_succ, List.getElem?_eq_getElem hi, hget] at hb
      exact hne (Option.some.inj hb).symm
    rw [ha, List.count_cons_self, List.count_eq_zero.mpr htl]

/-- The frame loop hands each frame to `render` once, and that call is its only write. -/
theorem rangeFrames_cons (env : Env) (delays : List Int) (i : Nat) (img : Image)
    (rest : List Image) (run : Run) (d : Int) (hd : delays[i]? = some d) :
    rangeFrames env delays i (img :: rest) run =
      rangeFrames env delays (i + 1) rest
        { stdout := renderCall img (env.size run.ticks.length) (env.elapsed run.ticks.length) run.stdout,
          ticks := run.ticks ++ [{ frame := i, sleep := sleepTime d }] } := by
  rw [rangeFrames, hd]
  rfl

/-- C11.  Standard output being the sequence of the writes performed: one call of
`render` appends exactly one write, the complete composed buffer (cursor home, pixel
grid, overlay); and after any number of passes of the driver the sequence is the full
clear `ESC[2J`, written once and first, followed by exactly one such buffer for each tick,
in order. -/
theorem one_write_per_tick (env : Env) (frames : List Image) (delays : List Int)
    (hlen : frames.length ≤ delays.length) (passes : Nat)
    (img : Image) (q : TermSize) (elapsed : Int) (out : List String) :
    renderCall img q elapsed out =
      out ++ ["\x1b[H" ++ specGrid img (termSize q).1 (termSize q).2 ++
        specOverlay (termSize q).2 (textCol (termSize q).1 (formatDuration elapsed))
          (formatDuration elapsed)] ∧
    (renderCall img q elapsed out).length = out.length + 1 ∧
    ∃ run : Run, main env frames delays passes = some run ∧
      run.ticks.length = passes * frames.length ∧
      run.stdout.length = run.ticks.length + 1 ∧
      run.stdout[0]? = some "\x1b[2J" ∧
      List.count "\x1b[2J" run.stdout = 1 ∧
      ∀ k, k < passes * frames.length → ∃ f : Image, frames[k % frames.length]? = some f ∧
        run.stdout[k + 1]? = some (specBuffer f (termSize (env.size k)).1 (termSize (env.size k)).2
          (env.elapsed k)) := by
  refine ⟨?_, ?_, ?_⟩
  · unfold renderCall
    rw [renderAt_eq]
    rfl
  · unfold renderCall
    simp
  · obtain ⟨run, hr, hp⟩ := forever_played env frames delays hlen passes 0 _
      (by simpa using played_start env frames delays)
    rw [Nat.zero_add] at hp
    obtain ⟨h1, h2, h3, h4⟩ := hp
    have hall : ∀ k, k < passes * frames.length → ∃ f : Image, frames[k % frames.length]? = some f ∧
        run.stdout[k + 1]? = some (specBuffer f (termSize (env.size k)).1 (termSize (env.size k)).2
          (env.elapsed k)) := by
      intro k hk
      have hpos : 0 < frames.length := by
        rcases Nat.eq_zero_or_pos frames.length with h0 | h0
        · rw [h0] at hk
          omega
        · exact h0
      obtain ⟨f, hf⟩ : ∃ f, frames[k % frames.length]? = some f :=
        ⟨_, List.getElem?_eq_getElem (Nat.mod_lt _ hpos)⟩
      refine ⟨f, hf, ?_⟩
      rw [(h4 k hk).2, hf]
      simp only [Option.map_some', render, renderAt_eq]
    refine ⟨run, hr, h1, by omega, h3, ?_, hall⟩
    apply count_head_only run.stdout _ (passes * frames.length) h3 _ h2
    intro k hk
    obtain ⟨f, _, hf⟩ := hall k hk
    exact ⟨_, hf, specBuffer_ne_clearScreen _ _ _ _⟩

/-- C11 for two frames and two passes: five writes, the clear and four frames. -/
theorem one_write_per_tick_witness :
    ∃ run : Run, main ⟨fun _ => ⟨2, 1, false⟩, fun _ => 0⟩ [twoPixels, twoPixels] [0, 5] 2 = some run ∧
      run.stdout.length = 5 ∧ List.count "\x1b[2J" run.stdout = 1 := by
  obtain ⟨run, h1, h2, h3, _, h5, _⟩ :=
    (one_write_per_tick ⟨fun _ => ⟨2, 1, false⟩, fun _ => 0⟩ [twoPixels, twoPixels] [0, 5]
      (by decide) 2 twoPixels ⟨2, 1, false⟩ 0 []).2.2
  refine ⟨run, h1, ?_, h5⟩
  rw [h3, h2]
  rfl

/-! ## The length of the overlay text (C16) -/

theorem byteSize_append (s t : String) :
    (s ++ t).utf8ByteSize = s.utf8ByteSize + t.utf8ByteSize := by
  cases s with
  | mk a =>
    cases t with
    | mk b =>
      show String.utf8ByteSize ⟨a ++ b⟩ = _
      simp only [String.utf8ByteSize_mk, String.utf8Len_append]

theorem byteSize_of_ascii (l : List Char) (h : ∀ c ∈ l, c.utf8Size = 1) :
    (String.mk l).utf8ByteSize = l.length := by
  rw [String.utf8ByteSize_mk]
  induction l with
  | nil => rfl
  | cons a l ih =>
    rw [String.utf8Len_cons, ih (fun c hc => h c (List.mem_cons_of_mem _ hc)),
      h a (List.mem_cons_self _ _), List.length_cons]

theorem digitChar_utf8Size (d : Nat) (h : d < 10) : (digitChar d).utf8Size = 1 := by
  unfold digitChar
  interval_cases d <;> decide

theorem byteSize_fmtNat (n : Nat) : (fmtNat n).utf8ByteSize = (fmtNat n).length := by
  unfold fmtNat
  rw [byteSize_of_ascii]
  · rfl
  · intro c hc
    obtain ⟨d, hd, rfl⟩ := mem_decDigits _ _ _ hc
    exact digitChar_utf8Size d hd

/-- The number of decimal digits: one below 10, two below 100, three or more from 100 on. -/
theorem fmtNat_length (n : Nat) :
    (n < 10 → (fmtNat n).length = 1) ∧ (10 ≤ n → n < 100 → (fmtNat n).length = 2) ∧
    (100 ≤ n → 3 ≤ (fmtNat n).length) := by
  refine ⟨?_, ?_, ?_⟩
  · intro h
    rw [fmtNat_lt_ten n h]
    rfl
  · intro h1 h2
    obtain ⟨k, rfl⟩ : ∃ k, n = k + 1 := ⟨n - 1, by omega⟩
    simp only [fmtNat, String.length_mk]
    rw [decDigits_ge_ten (k + 1) (k + 1) h1, decDigits_lt_ten k ((k + 1) / 10) (by omega)]
    rfl
  · intro h
    obtain ⟨k, rfl⟩ : ∃ k, n = k + 2 := ⟨n - 2, by omega⟩
    have hpos := decDigits_length_pos k ((k + 2) / 10 / 10)
    simp only [fmtNat, String.length_mk]
    rw [decDigits_ge_ten (k + 2) (k + 2) (by omega), decDigits_ge_ten (k + 1) ((k + 2) / 10) (by omega)]
    simp only [List.length_append, List.length_singleton]
    omega

theorem byteSize_pad2 (n : Nat) :
    (n < 100 → (pad2 n).utf8ByteSize = 2) ∧
    (100 ≤ n → 3 ≤ (pad2 n).utf8ByteSize ∧ pad2 n = fmtNat n) := by
  obtain ⟨l1, l2, l3⟩ := fmtNat_length n
  constructor
  · intro h
    unfold pad2
    by_cases h10 : n < 10
    · rw [if_pos h10, byteSize_append, byteSize_fmtNat, l1 h10]
      rfl
    · rw [if_neg h10, byteSize_fmtNat, l2 (by omega) h]
  · intro h
    unfold pad2
    rw [if_neg (by omega), byteSize_fmtNat]
    exact ⟨l3 h, rfl⟩

theorem byteSize_uptimeText (t : Nat) :
    (uptimeText t).utf8ByteSize = 14 + (pad2 (t / 3600)).utf8ByteSize := by
  unfold uptimeText
  have hm := (byteSize_pad2 (t / 60 % 60)).1 (by omega)
  have hs := (byteSize_pad2 (t % 60)).1 (Nat.lt_of_lt_of_le (Nat.mod_lt _ (by norm_num)) (by norm_num))
  simp only [byteSize_append, hm, hs]
  have e1 : ("Uptime: " : String).utf8ByteSize = 8 := by decide
  have e2 : (":" : String).utf8ByteSize = 1 := by decide
  rw [e1, e2]
  omega

/-- What `formatDuration` prints for a non-negative `Duration`. -/
theorem formatDuration_eq_uptimeText (d : Int) (h0 : 0 ≤ d) (h1 : d ≤ 9223372036854775807) :
    formatDuration d = uptimeText (min (roundSeconds d) 9223372036) := by
  have hT : ((roundSeconds d : Nat) : Int) = (d + 500000000) / 1000000000 := by
    unfold roundSeconds
    omega
  by_cases hs : d < 9223372036500000000
  · have hmin : min (roundSeconds d) 9223372036 = roundSeconds d := by
      apply min_eq_left
      omega
    rw [hmin]
    apply formatDuration_of_Round d (roundSeconds d) 0 le_rfl (by norm_num) (by omega)
    rw [Round_second d h0 hs]
    ring
  · have hmin : min (roundSeconds d) 9223372036 = 9223372036 := by
      apply min_eq_right
      omega
    rw [hmin]
    apply formatDuration_of_Round d 9223372036 854775807 (by norm_num) (by norm_num) (by norm_num)
    rw [Round_second_saturated d (by omega) h1]
    norm_num

/-- C16.  For every non-negative `Duration` `d`, the text of `formatDuration` is exactly
16 bytes long if and only if `d` rounds to fewer than 360000 seconds; from 100 hours on
the hour field is the hour number with all its digits (three or more) and the text is
longer than 16 bytes; in every case the minute and the second field are two bytes wide
and their values are below 60. -/
theorem formatDuration_length (d : Int) (h0 : 0 ≤ d) (h1 : d ≤ maxInt64) :
    ((formatDuration d).utf8ByteSize = 16 ↔ roundSeconds d < 360000) ∧
    (360000 ≤ roundSeconds d → 16 < (formatDuration d).utf8ByteSize ∧
      pad2 (min (roundSeconds d) 9223372036 / 3600) = fmtNat (min (roundSeconds d) 9223372036 / 3600) ∧
      3 ≤ (fmtNat (min (roundSeconds d) 9223372036 / 3600)).utf8ByteSize) ∧
    formatDuration d =
      "Uptime: " ++ pad2 (min (roundSeconds d) 9223372036 / 3600) ++ ":" ++
        pad2 (min (roundSeconds d) 9223372036 / 60 % 60) ++ ":" ++
        pad2 (min (roundSeconds d) 9223372036 % 60) ∧
    (pad2 (min (roundSeconds d) 9223372036 / 60 % 60)).utf8ByteSize = 2 ∧
    (pad2 (min (roundSeconds d) 9223372036 % 60)).utf8ByteSize = 2 ∧
    min (roundSeconds d) 9223372036 / 60 % 60 < 60 ∧ min (roundSeconds d) 9223372036 % 60 < 60 := by
  have hmax : maxInt64 = 9223372036854775807 := by unfold maxInt64; norm_num
  rw [hmax] at h1
  have heq := formatDuration_eq_uptimeText d h0 h1
  have hsize := byteSize_uptimeText (min (roundSeconds d) 9223372036)
  rw [← heq] at hsize
  have hlt60 : min (roundSeconds d) 9223372036 % 60 < 60 := Nat.mod_lt _ (by norm_num)
  have hmm : min (roundSeconds d) 9223372036 / 60 % 60 < 60 := Nat.mod_lt _ (by norm_num)
  obtain ⟨p1, p2⟩ := byteSize_pad2 (min (roundSeconds d) 9223372036 / 3600)
  refine ⟨?_, ?_, ?_, (byteSize_pad2 _).1 (by omega), (byteSize_pad2 _).1 (by omega), hmm, hlt60⟩
  · constructor
    · intro h16
      by_contra hge
      have h100 : 100 ≤ min (roundSeconds d) 9223372036 / 3600 := by
        rw [Nat.le_div_iff_mul_le (by norm_num)]
        apply le_min (by omega) (by norm_num)
      have := (p2 h100).1
      omega
    · intro hlt
      have hh : min (roundSeconds d) 9223372036 / 3600 < 100 := by
        rw [Nat.div_lt_iff_lt_mul (by norm_num)]
        exact lt_of_le_of_lt (min_le_left _ _) (by omega)
      rw [hsize, p1 hh]
  · intro hge
    have h100 : 100 ≤ min (roundSeconds d) 9223372036 / 3600 := by
      rw [Nat.le_div_iff_mul_le (by norm_num)]
      apply le_min (by omega) (by norm_num)
    obtain ⟨q1, q2⟩ := p2 h100
    refine ⟨by omega, q2, ?_⟩
    rw [← q2]
    exact q1
  · rw [heq]
    rfl

/-- C16 at 99:59:59, the last text of 16 bytes, and at 100 hours, the first of 17. -/
theorem formatDuration_length_witness :
    (formatDuration (359999 * Second)).utf8ByteSize = 16 ∧
    formatDuration (359999 * Second) = "Uptime: 99:59:59" ∧
    16 < (formatDuration (360000 * Second)).utf8ByteSize ∧
    formatDuration (360000 * Second) = "Uptime: 100:00:00" :=
  ⟨((formatDuration_length (359999 * Second) (by decide) (by decide)).1).mpr (by decide),
    by decide,
    ((formatDuration_length (360000 * Second) (by decide) (by decide)).2.1 (by decide)).1,
    by decide⟩

/-! ## Order and coverage of the sampling map (C14) -/

theorem srcCoord_zero (W c : Int) (hW : 1 ≤ W) (hc : 1 ≤ c) (hWc : W * c ≤ 2 ^ 51) :
    srcCoord W c 0 = 0 := by
  obtain ⟨_, h2, _, h4, _⟩ := srcCoord_near W c 0 hW hc le_rfl (by omega) hWc
  simp only [zero_mul, Int.zero_ediv] at h2
  omega

/-- The source coordinate does not decrease along a row, float rounding or not. -/
theorem srcCoord_mono (W c x x' : Int) (hW : 1 ≤ W) (hc : 1 ≤ c) (hx0 : 0 ≤ x) (hxx : x ≤ x')
    (hxc : x' < c) (hWc : W * c ≤ 2 ^ 51) : srcCoord W c x ≤ srcCoord W c x' := by
  obtain ⟨_, a2, _, _, _⟩ := srcCoord_near W c x hW hc hx0 (by omega) hWc
  obtain ⟨b1, _, b3, _, _⟩ := srcCoord_near W c x' hW hc (by omega) hxc hWc
  have hcpos : 0 < c := by omega
  have hmono : x * W / c ≤ x' * W / c :=
    Int.ediv_le_ediv hcpos (Int.mul_le_mul_of_nonneg_right hxx (by omega))
  by_cases hdiv : x' * W % c = 0
  · rcases eq_or_lt_of_le hxx with heq | hlt
    · rw [heq]
    · have hlt2 : x * W < x' * W := Int.mul_lt_mul_of_pos_right hlt (by omega)
      have hK : x' * W = x' * W / c * c := by
        have := Int.ediv_add_emod (x' * W) c
        rw [hdiv] at this
        linarith
      have : x * W / c < x' * W / c := by
        apply Int.ediv_lt_of_lt_mul hcpos
        rw [← hK]
        exact hlt2
      omega
  · have := b3 hdiv
    omega

/-- When the grid is at least as wide as the frame, every source coordinate is the
coordinate of some cell. -/
theorem srcCoord_onto (W c k : Int) (hW : 1 ≤ W) (hWle : W ≤ c) (hk0 : 0 ≤ k) (hk : k < W)
    (hWc : W * c ≤ 2 ^ 51) : ∃ x, 0 ≤ x ∧ x < c ∧ srcCoord W c x = k := by
  have hc : 1 ≤ c := by omega
  have hcpos : 0 < c := by omega
  have h51 : (2 : Int) ^ 51 = 2251799813685248 := by norm_num
  rcases eq_or_lt_of_le hWle with heq | hlt
  · -- identity scale
    refine ⟨k, hk0, by omega, ?_⟩
    rw [← heq]
    apply srcCoord_identity W k hW hk0
    have : W * 1 ≤ W * c := Int.mul_le_mul_of_nonneg_left hc (by omega)
    have h53 : (2 : Int) ^ 53 = 9007199254740992 := by norm_num
    omega
  · -- the first cell whose exact quotient reaches `k`
    set x0 := (k * c + W - 1) / W with hx0
    have hWpos : 0 < W := by omega
    have hdm := Int.ediv_add_emod (k * c + W - 1) W
    have hm0 := Int.emod_nonneg (k * c + W - 1) (by omega : W ≠ 0)
    have hmlt := Int.emod_lt_of_pos (k * c + W - 1) hWpos
    rw [← hx0] at hdm
    have hlo : k * c ≤ x0 * W := by linarith
    have hhi : x0 * W < k * c + W := by linarith
    have hkc : k * c ≤ (W - 1) * c := Int.mul_le_mul_of_nonneg_right (by omega) (by omega)
    have hx0nn : 0 ≤ x0 := by
      by_contra hneg
      have : x0 ≤ -1 := by omega
      have : x0 * W ≤ -1 * W := Int.mul_le_mul_of_nonneg_right this (by omega)
      have : 0 ≤ k * c := Int.mul_nonneg hk0 (by omega)
      omega
    have hx0c : x0 + 1 < c ∨ (x0 < c ∧ x0 * W ≠ k * c) := by
      by_cases hex : x0 * W = k * c
      · left
        by_contra hcon
        have : c - 1 ≤ x0 := by omega
        have : (c - 1) * W ≤ x0 * W := Int.mul_le_mul_of_nonneg_right this (by omega)
        nlinarith
      · right
        refine ⟨?_, hex⟩
        by_contra hcon
        have : c ≤ x0 := by omega
        have : c * W ≤ x0 * W := Int.mul_le_mul_of_nonneg_right this (by omega)
        nlinarith
    have hfloor0 : x0 * W / c = k := by
      have h1 : k ≤ x0 * W / c := (Int.le_ediv_iff_mul_le hcpos).mpr hlo
      have h2 : x0 * W / c < k + 1 := (Int.ediv_lt_iff_lt_mul hcpos).mpr (by linarith)
      omega
    by_cases hdiv : x0 * W % c = 0
    · -- exact quotient: this cell or the next one
      have hex : x0 * W = k * c := by
        have := Int.ediv_add_emod (x0 * W) c
        rw [hdiv, hfloor0] at this
        linarith
      have hx0c' : x0 + 1 < c := by
        rcases hx0c with h | h
        · exact h
        · exact absurd hex h.2
      obtain ⟨n1, n2, _, _, _⟩ := srcCoord_near W c x0 hW hc hx0nn (by omega) hWc
      rw [hfloor0] at n1 n2
      by_cases hhit : srcCoord W c x0 = k
      · exact ⟨x0, hx0nn, by omega, hhit⟩
      · have hnext : (x0 + 1) * W = k * c + W := by linarith
        have hmod : (x0 + 1) * W % c ≠ 0 := by
          rw [hnext, Int.add_comm, Int.add_mul_emod_self, Int.emod_eq_of_lt (by omega) hlt]
          omega
        have hq : (x0 + 1) * W / c = k := by
          rw [hnext, Int.add_comm, Int.add_mul_ediv_right _ _ (by omega : c ≠ 0),
            Int.ediv_eq_zero_of_lt (by omega) hlt]
          omega
        obtain ⟨_, _, m3, _, _⟩ := srcCoord_near W c (x0 + 1) hW hc (by omega) hx0c' hWc
        exact ⟨x0 + 1, by omega, hx0c', (m3 hmod).trans hq⟩
    · have hx0c' : x0 < c := by
        rcases hx0c with h | h
        · omega
        · exact h.1
      obtain ⟨_, _, n3, _, _⟩ := srcCoord_near W c x0 hW hc hx0nn hx0c' hWc
      exact ⟨x0, hx0nn, hx0c', (n3 hdiv).trans hfloor0⟩

/-- The exact quotient `⌊x * W / c⌋` reaches every source coordinate when `W ≤ c`. -/
theorem floor_onto (W c k : Int) (hW : 1 ≤ W) (hWle : W ≤ c) (hk0 : 0 ≤ k) (hk : k < W) :
    ∃ x, 0 ≤ x ∧ x < c ∧ x * W / c = k := by
  have hcpos : 0 < c := by omega
  have hWpos : 0 < W := by omega
  have hdm := Int.ediv_add_emod (k * c + W - 1) W
  have hm0 := Int.emod_nonneg (k * c + W - 1) (by omega : W ≠ 0)
  have hmlt := Int.emod_lt_of_pos (k * c + W - 1) hWpos
  set x0 := (k * c + W - 1) / W with hx0
  have hlo : k * c ≤ x0 * W := by linarith
  have hhi : x0 * W < k * c + W := by linarith
  have hkc : k * c ≤ (W - 1) * c := Int.mul_le_mul_of_nonneg_right (by omega) (by omega)
  refine ⟨x0, ?_, ?_, ?_⟩
  · by_contra hneg
    have : x0 ≤ -1 := by omega
    have : x0 * W ≤ -1 * W := Int.mul_le_mul_of_nonneg_right this (by omega)
    have : 0 ≤ k * c := Int.mul_nonneg hk0 (by omega)
    omega
  · by_contra hcon
    have : c ≤ x0 := by omega
    have : c * W ≤ x0 * W := Int.mul_le_mul_of_nonneg_right this (by omega)
    nlinarith
  · have h1 : k ≤ x0 * W / c := (Int.le_ediv_iff_mul_le hcpos).mpr hlo
    have h2 : x0 * W / c < k + 1 := (Int.ediv_lt_iff_lt_mul hcpos).mpr (by linarith)
    omega

/-- C14.  The sampling map keeps the order and loses nothing when upsampling.  For a
frame of width `W ≥ 1` and `columns ≥ 1` (with `W * columns ≤ 2^51`), the source column
`srcX` that `render` computes is 0 at `x = 0`, does not decrease as `x` runs through
the row, and, when `columns ≥ W`, takes every value `0 .. W - 1`; likewise `srcY` with
the height and `rows`.  The exact quotient `⌊x * W / columns⌋`, from which `srcX` can
differ by one, has the same three properties. -/
theorem sampling_monotone_onto (img : Image) (columns rows : Int)
    (hW : 1 ≤ img.Dx) (hH : 1 ≤ img.Dy) (hc : 1 ≤ columns) (hr : 1 ≤ rows)
    (hWc : img.Dx * columns ≤ 2 ^ 51) (hHr : img.Dy * rows ≤ 2 ^ 51) :
    (srcX img columns 0 = 0 ∧
      (∀ x x', 0 ≤ x → x ≤ x' → x' < columns → srcX img columns x ≤ srcX img columns x') ∧
      (img.Dx ≤ columns → ∀ k, 0 ≤ k → k < img.Dx →
        ∃ x, 0 ≤ x ∧ x < columns ∧ srcX img columns x = k)) ∧
    (srcY img rows 0 = 0 ∧
      (∀ y y', 0 ≤ y → y ≤ y' → y' < rows → srcY img rows y ≤ srcY img rows y') ∧
      (img.Dy ≤ rows → ∀ k, 0 ≤ k → k < img.Dy →
        ∃ y, 0 ≤ y ∧ y < rows ∧ srcY img rows y = k)) ∧
    ((0 : Int) * img.Dx / columns = 0 ∧
      (∀ x x' : Int, x ≤ x' → x * img.Dx / columns ≤ x' * img.Dx / columns) ∧
      (img.Dx ≤ columns → ∀ k, 0 ≤ k → k < img.Dx →
        ∃ x, 0 ≤ x ∧ x < columns ∧ x * img.Dx / columns = k)) ∧
    ((0 : Int) * img.Dy / rows = 0 ∧
      (∀ y y' : Int, y ≤ y' → y * img.Dy / rows ≤ y' * img.Dy / rows) ∧
      (img.Dy ≤ rows → ∀ k, 0 ≤ k → k < img.Dy →
        ∃ y, 0 ≤ y ∧ y < rows ∧ y * img.Dy / rows = k)) := by
  refine ⟨⟨?_, ?_, ?_⟩, ⟨?_, ?_, ?_⟩, ⟨by simp, ?_, ?_⟩, ⟨by simp, ?_, ?_⟩⟩
  · rw [srcX_eq]
    exact srcCoord_zero _ _ hW hc hWc
  · intro x x' h0 hxx hx'
    rw [srcX_eq, srcX_eq]
    exact srcCoord_mono _ _ x x' hW hc h0 hxx hx' hWc
  · intro hle k hk0 hk
    obtain ⟨x, h1, h2, h3⟩ := srcCoord_onto _ _ k hW hle hk0 hk hWc
    exact ⟨x, h1, h2, by rw [srcX_eq]; exact h3⟩
  · rw [srcY_eq]
    exact srcCoord_zero _ _ hH hr hHr
  · intro y y' h0 hyy hy'
    rw [srcY_eq, srcY_eq]
    exact srcCoord_mono _ _ y y' hH hr h0 hyy hy' hHr
  · intro hle k hk0 hk
    obtain ⟨y, h1, h2, h3⟩ := srcCoord_onto _ _ k hH hle hk0 hk hHr
    exact ⟨y, h1, h2, by rw [srcY_eq]; exact h3⟩
  · intro x x' hxx
    exact Int.ediv_le_ediv (by omega) (Int.mul_le_mul_of_nonneg_right hxx (by omega))
  · intro hle k hk0 hk
    exact floor_onto _ _ k hW hle hk0 hk
  · intro y y' hyy
    exact Int.ediv_le_ediv (by omega) (Int.mul_le_mul_of_nonneg_right hyy (by omega))
  · intro hle k hk0 hk
    exact floor_onto _ _ k hH hle hk0 hk

/-- C14 at the frame `twoPixels` on 98 columns: the row starts at source column 0, and
source column 1 is sampled as well. -/
theorem sampling_monotone_onto_witness :
    srcX twoPixels 98 0 = 0 ∧ srcX twoPixels 98 49 ≤ srcX twoPixels 98 50 ∧
    ∃ x, 0 ≤ x ∧ x < 98 ∧ srcX twoPixels 98 x = 1 :=
  ⟨(sampling_monotone_onto twoPixels 98 1 (by decide) (by decide) (by decide) (by decide)
      (by decide) (by decide)).1.1,
    (sampling_monotone_onto twoPixels 98 1 (by decide) (by decide) (by decide) (by decide)
      (by decide) (by decide)).1.2.1 49 50 (by decide) (by decide) (by decide),
    (sampling_monotone_onto twoPixels 98 1 (by decide) (by decide) (by decide) (by decide)
      (by decide) (by decide)).1.2.2 (by decide) 1 (by decide) (by decide)⟩

/-! ## Reading the buffer back (C13) -/

theorem digitChar_toNat (d : Nat) (h : d < 10) : (digitChar d).toNat - 48 = d := by
  unfold digitChar
  interval_cases d <;> decide

theorem decValue_decDigits (fuel n : Nat) (h : n < fuel) : decValue (decDigits fuel n) = n := by
  induction fuel generalizing n with
  | zero => omega
  | succ f ih =>
    by_cases hn : n < 10
    · rw [decDigits_lt_ten f n hn]
      simp [decValue, digitChar_toNat n hn]
    · rw [decDigits_ge_ten f n (by omega)]
      have h1 := ih (n / 10) (by omega)
      unfold decValue at h1 ⊢
      rw [List.foldl_append, h1]
      simp only [List.foldl_cons, List.foldl_nil]
      rw [digitChar_toNat _ (Nat.mod_lt _ (by norm_num))]
      omega

/-- Decimal printing loses nothing: equal texts come from equal numbers. -/
theorem fmtNat_injective (a b : Nat) (h : (fmtNat a).data = (fmtNat b).data) : a = b := by
  have ha := decValue_decDigits (a + 1) a (by omega)
  have hb := decValue_decDigits (b + 1) b (by omega)
  unfold fmtNat at h
  simp only at h
  rw [← ha, ← hb, h]

theorem digitChar_ne_semicolon (d : Nat) (h : d < 10) : digitChar d ≠ ';' := by
  unfold digitChar
  interval_cases d <;> decide

theorem fmtNat_no_semicolon (n : Nat) : ';' ∉ (fmtNat n).data := by
  intro h
  obtain ⟨d, hd, hc⟩ := mem_decDigits _ _ _ h
  exact digitChar_ne_semicolon d hd hc.symm

/-- Two texts that agree up to and including their first separator agree before it
and after it. -/
theorem append_sep_inj (s : Char) (b1 b2 r1 r2 : List Char) (h1 : s ∉ b1) (h2 : s ∉ b2)
    (h : b1 ++ s :: r1 = b2 ++ s :: r2) : b1 = b2 ∧ r1 = r2 := by
  induction b1 generalizing b2 with
  | nil =>
    cases b2 with
    | nil => simpa using h
    | cons c b2 =>
      simp only [List.nil_append, List.cons_append, List.cons.injEq] at h
      exact absurd (by simp [h.1]) h2
  | cons c b1 ih =>
    cases b2 with
    | nil =>
      simp only [List.nil_append, List.cons_append, List.cons.injEq] at h
      exact absurd (by simp [h.1]) h1
    | cons c' b2 =>
      simp only [List.cons_append, List.cons.injEq] at h
      obtain ⟨e1, e2⟩ := ih b2 (fun hm => h1 (List.mem_cons_of_mem _ hm))
        (fun hm => h2 (List.mem_cons_of_mem _ hm)) h.2
      exact ⟨by rw [h.1, e1], e2⟩

/-- The text of a cell determines the three channels it carries. -/
theorem specCell_injective (c1 c2 : RGBA) (h : specCell c1 = specCell c2) :
    c1.R = c2.R ∧ c1.G = c2.G ∧ c1.B = c2.B := by
  have hd := congrArg String.data h
  simp only [specCell, String.data_append, List.append_assoc] at hd
  have hd1 := List.append_cancel_left hd
  simp only [List.singleton_append] at hd1
  obtain ⟨hR, hd2⟩ := append_sep_inj ';' _ _ _ _ (fmtNat_no_semicolon _) (fmtNat_no_semicolon _) hd1
  obtain ⟨hG, hd3⟩ := append_sep_inj ';' _ _ _ _ (fmtNat_no_semicolon _) (fmtNat_no_semicolon _) hd2
  have hB := List.append_cancel_right hd3
  exact ⟨Fin.ext (fmtNat_injective _ _ hR), Fin.ext (fmtNat_injective _ _ hG),
    Fin.ext (fmtNat_injective _ _ hB)⟩

/-- A text without escape character, followed by the next sequence or by nothing, can
be read off in one way only. -/
theorem esc_free_inj (b b' r r' : List Char) (hb : '\x1b' ∉ b) (hb' : '\x1b' ∉ b')
    (hr : EscHeaded r) (hr' : EscHeaded r') (h : b ++ r = b' ++ r') : b = b' ∧ r = r' := by
  induction b generalizing b' with
  | nil =>
    cases b' with
    | nil => simpa using h
    | cons c b' =>
      simp only [List.nil_append, List.cons_append] at h
      rcases hr with hr | ⟨t, hr⟩
      · rw [hr] at h
        simp at h
      · rw [hr] at h
        simp only [List.cons.injEq] at h
        exact absurd (List.mem_cons.mpr (Or.inl h.1)) hb'
  | cons c b ih =>
    cases b' with
    | nil =>
      simp only [List.nil_append, List.cons_append] at h
      rcases hr' with hr' | ⟨t, hr'⟩
      · rw [hr'] at h
        simp at h
      · rw [hr'] at h
        simp only [List.cons.injEq] at h
        exact absurd (List.mem_cons.mpr (Or.inl h.1.symm)) hb
    | cons c' b' =>
      simp only [List.cons_append, List.cons.injEq] at h
      obtain ⟨e1, e2⟩ := ih b' (fun hm => hb (List.mem_cons_of_mem _ hm))
        (fun hm => hb' (List.mem_cons_of_mem _ hm)) h.2
      exact ⟨by rw [h.1, e1], e2⟩

theorem specCell_esc (c : RGBA) :
    ∃ rest : List Char, (specCell c).data = '\x1b' :: rest ∧ '\x1b' ∉ rest := by
  obtain ⟨body, hdata, hesc, _, _⟩ := specCell_data c
  refine ⟨_, hdata, ?_⟩
  simp only [List.mem_cons, not_or]
  exact ⟨by decide, by decide, by decide, by decide, by decide, by decide, hesc⟩

theorem escHeaded_cells (f : Nat → RGBA) (l : List Nat) (r : List Char) (hr : EscHeaded r) :
    EscHeaded ((String.join (l.map (fun (x : Nat) => specCell (f x)))).data ++ r) := by
  cases l with
  | nil => simpa [String.join] using hr
  | cons a l =>
    obtain ⟨rest, hdata, _⟩ := specCell_esc (f a)
    right
    rw [List.map_cons, join_cons, String.data_append, hdata]
    exact ⟨_, rfl⟩

/-- The cells of a row, followed by the next sequence, determine each cell. -/
theorem cells_inj (f g : Nat → RGBA) (l : List Nat) (r1 r2 : List Char)
    (h1 : EscHeaded r1) (h2 : EscHeaded r2)
    (h : (String.join (l.map (fun (x : Nat) => specCell (f x)))).data ++ r1 =
      (String.join (l.map (fun (x : Nat) => specCell (g x)))).data ++ r2) :
    (∀ x ∈ l, specCell (f x) = specCell (g x)) ∧ r1 = r2 := by
  induction l with
  | nil =>
    refine ⟨fun x hx => absurd hx (List.not_mem_nil _), ?_⟩
    simpa [String.join] using h
  | cons a l ih =>
    obtain ⟨rf, hf, hfe⟩ := specCell_esc (f a)
    obtain ⟨rg, hg, hge⟩ := specCell_esc (g a)
    simp only [List.map_cons, join_cons, String.data_append, List.append_assoc] at h
    rw [hf, hg] at h
    simp only [List.cons_append, List.cons.injEq, true_and] at h
    obtain ⟨e1, e2⟩ := esc_free_inj rf rg _ _ hfe hge (escHeaded_cells f l r1 h1)
      (escHeaded_cells g l r2 h2) h
    obtain ⟨i1, i2⟩ := ih e2
    refine ⟨?_, i2⟩
    intro x hx
    rcases List.mem_cons.mp hx with hxa | hxl
    · rw [hxa]
      apply String.ext
      rw [hf, hg, e1]
    · exact i1 x hxl

/-- A row, followed by the next sequence, determines each of its cells. -/
theorem row_inj (img1 img2 : Image) (columns rows : Int) (y : Nat) (r1 r2 : List Char)
    (h : (specRow img1 columns rows y).data ++ r1 = (specRow img2 columns rows y).data ++ r2) :
    (∀ x ∈ List.range columns.toNat,
      specCell (sampleColor img1 columns rows (x : Int) (y : Int)) =
        specCell (sampleColor img2 columns rows (x : Int) (y : Int))) ∧ r1 = r2 := by
  have hreset : ("\x1b[0m\n" : String).data = '\x1b' :: ['[', '0', 'm', '\n'] := rfl
  rw [specRow_split, specRow_split, String.data_append, String.data_append,
    List.append_assoc, List.append_assoc] at h
  obtain ⟨e1, e2⟩ := cells_inj (fun x => sampleColor img1 columns rows (x : Int) (y : Int))
    (fun x => sampleColor img2 columns rows (x : Int) (y : Int)) _ _ _
    (Or.inr ⟨_, by rw [hreset]; rfl⟩) (Or.inr ⟨_, by rw [hreset]; rfl⟩) h
  exact ⟨e1, List.append_cancel_left e2⟩

/-- The rows of the grid, followed by the next sequence, determine every cell. -/
theorem rows_inj (img1 img2 : Image) (columns rows : Int) (l : List Nat) (r1 r2 : List Char)
    (h : (String.join (l.map (specRow img1 columns rows))).data ++ r1 =
      (String.join (l.map (specRow img2 columns rows))).data ++ r2) :
    (∀ y ∈ l, ∀ x ∈ List.range columns.toNat,
      specCell (sampleColor img1 columns rows (x : Int) (y : Int)) =
        specCell (sampleColor img2 columns rows (x : Int) (y : Int))) ∧ r1 = r2 := by
  induction l with
  | nil =>
    refine ⟨fun y hy => absurd hy (List.not_mem_nil _), ?_⟩
    simpa [String.join] using h
  | cons a l ih =>
    simp only [List.map_cons, join_cons, String.data_append, List.append_assoc] at h
    obtain ⟨e1, e2⟩ := row_inj img1 img2 columns rows a _ _ h
    obtain ⟨i1, i2⟩ := ih e2
    refine ⟨?_, i2⟩
    intro y hy
    rcases List.mem_cons.mp hy with hya | hyl
    · rw [hya]
      exact e1
    · exact i1 y hyl

/-- Equal composed buffers, at one geometry, carry equal channels in every cell. -/
theorem specBuffer_inj (img1 img2 : Image) (columns rows e1 e2 : Int)
    (h : specBuffer img1 columns rows e1 = specBuffer img2 columns rows e2) (x y : Nat)
    (hx : (x : Int) < columns) (hy : (y : Int) < rows) :
    (sampleColor img1 columns rows (x : Int) (y : Int)).R =
        (sampleColor img2 columns rows (x : Int) (y : Int)).R ∧
    (sampleColor img1 columns rows (x : Int) (y : Int)).G =
        (sampleColor img2 columns rows (x : Int) (y : Int)).G ∧
    (sampleColor img1 columns rows (x : Int) (y : Int)).B =
        (sampleColor img2 columns rows (x : Int) (y : Int)).B := by
  have hd := congrArg String.data h
  unfold specBuffer specGrid at hd
  simp only [String.data_append, List.append_assoc] at hd
  have hd1 := List.append_cancel_left hd
  obtain ⟨hcells, _⟩ := rows_inj img1 img2 columns rows _ _ _ hd1
  exact specCell_injective _ _
    (hcells y (List.mem_range.mpr (by omega)) x (List.mem_range.mpr (by omega)))

/-- C13.  Composition is injective in the sampled grid.  For one geometry `columns` by
`rows` and any two overlay texts, one and the same text included: if a cell `(x, y)` of
the grid, `0 ≤ x < columns` and `0 ≤ y < rows`, gets different `(r, g, b)` values from the
two frames, the two composed buffers differ, and so do the texts of two calls of `render`
for which the terminal reports that geometry. -/
theorem buffers_differ (img1 img2 : Image) (columns rows e1 e2 : Int) (x y : Nat)
    (hx : (x : Int) < columns) (hy : (y : Int) < rows)
    (hdiff : ((sampleColor img1 columns rows (x : Int) (y : Int)).RGBA.1,
        (sampleColor img1 columns rows (x : Int) (y : Int)).RGBA.2.1,
        (sampleColor img1 columns rows (x : Int) (y : Int)).RGBA.2.2.1) ≠
      ((sampleColor img2 columns rows (x : Int) (y : Int)).RGBA.1,
        (sampleColor img2 columns rows (x : Int) (y : Int)).RGBA.2.1,
        (sampleColor img2 columns rows (x : Int) (y : Int)).RGBA.2.2.1)) :
    (renderAt img1 columns rows e1).buf ≠ (renderAt img2 columns rows e2).buf ∧
    ∀ q1 q2 : TermSize, termSize q1 = (columns, rows) → termSize q2 = (columns, rows) →
      render img1 q1 e1 ≠ render img2 q2 e2 := by
  have key : (renderAt img1 columns rows e1).buf ≠ (renderAt img2 columns rows e2).buf := by
    intro h
    rw [renderAt_eq, renderAt_eq] at h
    obtain ⟨hR, hG, hB⟩ := specBuffer_inj img1 img2 columns rows e1 e2 h x y hx hy
    apply hdiff
    simp only [RGBA.RGBA, hR, hG, hB]
  refine ⟨key, ?_⟩
  intro q1 q2 h1 h2
  unfold render
  rw [h1, h2]
  exact key

/-- C13 at the geometry 2 by 1: a frame with a red and a blue pixel and an all-black frame
differ in the cell `(0, 0)`, and the two calls of `render` write different texts. -/
theorem buffers_differ_witness :
    sampleColor twoPixels 2 1 0 0 = ⟨255, 0, 0, 255⟩ ∧
    sampleColor darkPixels 2 1 0 0 = ⟨0, 0, 0, 255⟩ ∧
    render twoPixels ⟨2, 1, false⟩ 0 ≠ render darkPixels ⟨2, 1, false⟩ 0 :=
  ⟨by decide, by decide,
    (buffers_differ twoPixels darkPixels 2 1 0 0 0 0 (by decide) (by decide) (by decide)).2
      ⟨2, 1, false⟩ ⟨2, 1, false⟩ (by decide) (by decide)⟩

end Fireplace
